import Mathlib

/-
Verification of the `vector_variations` container library
(`fixed_capacity_vector.h`, `stack_assisted_vector.h`,
`bounds_checked_vector.h`).

The element buffers of `FixedCapacityVector` and `StackAssistedVector` are
raw storage written by placement-construction.  We model a buffer as the
`List` of its currently-written slots (a write at or beyond the current end
extends the list, with never-written gap slots modeled as `default`), and
translate each construct/destroy loop of the source into a recursive
function on such buffers.  The reference growable array of the spec is
modeled directly as a `List`.
-/

namespace VecVar

/-- One raw-storage write: placement-`construct`ing a value `x` into slot `i`
of a buffer.  If `i` is beyond the written region the buffer is extended
(gap slots modeled as `default`), mirroring a write into raw memory. -/
def writeSlot {α : Type} [Inhabited α] (buf : List α) (i : Nat) (x : α) : List α :=
  if i < buf.length then buf.set i x
  else buf ++ List.replicate (i - buf.length) default ++ [x]

/-- A run of consecutive raw writes: placement-`construct`ing the values `xs`
into slots `off, off + 1, ...` (the pattern of the copy loops in `insert`
and in the element-constructing constructors). -/
def writeRun {α : Type} [Inhabited α] : List α → Nat → List α → List α
  | buf, _, [] => buf
  | buf, off, x :: xs => writeRun (writeSlot buf off x) (off + 1) xs

/-- The rightward-shifting loop of `insert`:
`for (auto it = end(); it != pos; --it) construct(it + n - 1, move(*(it - 1)));`
shifting the elements at positions `[off, it)` upward by `n` slots, iterating
with `it` descending from `size` to `off + 1`.  (The single-element `insert`
overloads run the same loop with `n = 1`: there `it + n - 1 = it`.) -/
def shiftRN {α : Type} [Inhabited α] (off n : Nat) : Nat → List α → List α
  | 0, buf => buf
  | it + 1, buf =>
    if off < it + 1 then
      shiftRN off n it (writeSlot buf (it + n) (buf.getD it default))
    else buf

/-- The leftward-shifting loop of `erase`:
`while (pos != end() - n) { *pos = move(*(pos + n)); ++pos; }`;
`cnt` counts the remaining iterations `(sz - n) - pos`. -/
def shiftL {α : Type} [Inhabited α] (n : Nat) : Nat → Nat → List α → List α
  | 0, _, buf => buf
  | cnt + 1, pos, buf => shiftL n cnt (pos + 1) (writeSlot buf pos (buf.getD (pos + n) default))

/-- The capacity-doubling loop of the multi-element `insert` overloads:
`auto new_capacity = capacity(); while (new_capacity < current_size + n) new_capacity *= 2;`
run with explicit fuel (`t` iterations always suffice when the starting
capacity is at least 1). -/
def growLoop : Nat → Nat → Nat → Nat
  | 0, c, _ => c
  | f + 1, c, t => if c < t then growLoop f (2 * c) t else c

/-- The doubled capacity the multi-element `insert` overloads request. -/
def newCapFor (c t : Nat) : Nat := growLoop t c t

/-- The indices destroyed, in iteration order, by a loop
`for (i = lo; i < hi; ++i) destroy(begin() + i);`. -/
def destroySeq (lo hi : Nat) : List Nat := List.range' lo (hi - lo)

/-! ## FixedCapacityVector

`FixedCapacityVector<T, Capacity, Allocator>` from
`include/vector_variations/fixed_capacity_vector.h`.  The state is the raw
`elements` union buffer plus `current_size`; the `Capacity` template
parameter is passed to each operation that mentions it.  The live elements
are the first `current_size` slots.  A failing `assert` (which aborts the
process) is modeled as an `Option` result of `none`. -/

structure FCV (α : Type) where
  elements : List α
  current_size : Nat
deriving DecidableEq

/-- `size()`: returns `current_size`. -/
def FCV.size (v : FCV α) : Nat := v.current_size

/-- `capacity()`: returns the `Capacity` template parameter, independent of
the instance state. -/
def FCV.capacity (Capacity : Nat) (_ : FCV α) : Nat := Capacity

/-- The sequence of live elements, in index order. -/
def FCV.toList (v : FCV α) : List α := v.elements.take v.current_size

/-- The default constructor: `current_size = 0`, `elements` uninitialized. -/
def fcvEmpty {α : Type} : FCV α := ⟨[], 0⟩

/-- `push_back(element)`: `assert(current_size <= Capacity);` then
`construct(elements + current_size++, element)`.  Note the assert is `<=`,
not `<`: it does not fail when `current_size == Capacity`.  (The copying and
moving overloads differ only in how the value is passed.) -/
def fcvPushBack {α : Type} [Inhabited α] (Capacity : Nat) (v : FCV α) (x : α) :
    Option (FCV α) :=
  if v.current_size ≤ Capacity then
    some ⟨writeSlot v.elements v.current_size x, v.current_size + 1⟩
  else none

/-- `emplace_back(args...)`: same assert and same construct-at-end as
`push_back`, with the element built in place; modeled with the constructed
value `x`. -/
def fcvEmplaceBack {α : Type} [Inhabited α] (Capacity : Nat) (v : FCV α) (x : α) :
    Option (FCV α) :=
  fcvPushBack Capacity v x

/-- `pop_back()`: `assert(!empty());` destroy the last element and decrement
`current_size`. -/
def fcvPopBack {α : Type} (v : FCV α) : Option (FCV α) :=
  if v.current_size = 0 then none
  else some ⟨v.elements, v.current_size - 1⟩

/-- `clear()`: destroys every element, `current_size = 0` (the raw buffer is
untouched). -/
def fcvClear {α : Type} (v : FCV α) : FCV α := ⟨v.elements, 0⟩

/-- `insert(position, element)` (copy and move overloads):
`assert(size() <= Capacity)`; shift `[off, size)` right by one slot
(the loop is the `n = 1` instance of `shiftRN`); construct `x` at `off`;
`++current_size`.  Returns `pos = begin() + (position - begin())`, i.e. the
offset `off`. -/
def fcvInsert1 {α : Type} [Inhabited α] (Capacity : Nat) (v : FCV α) (off : Nat) (x : α) :
    Option (FCV α × Nat) :=
  if v.current_size ≤ Capacity then
    some (⟨writeSlot (shiftRN off 1 v.current_size v.elements) off x, v.current_size + 1⟩, off)
  else none

/-- `insert(position, n, element)`: `assert(size() + n <= Capacity)`; early
return of `pos` when `n == 0`; else shift `[off, size)` right by `n` and
write `n` copies of `x` at `[off, off + n)`. -/
def fcvInsertN {α : Type} [Inhabited α] (Capacity : Nat) (v : FCV α) (off n : Nat) (x : α) :
    Option (FCV α × Nat) :=
  if v.current_size + n ≤ Capacity then
    if n = 0 then some (v, off)
    else
      some (⟨writeRun (shiftRN off n v.current_size v.elements) off (List.replicate n x),
        v.current_size + n⟩, off)
  else none

/-- `insert(position, first, last)`: early return of `pos` when
`first == last` (before the assert); else `n = distance(first, last)`,
`assert(size() + n <= Capacity)`, shift right by `n` and write the range
contents `ys`. -/
def fcvInsertRange {α : Type} [Inhabited α] (Capacity : Nat) (v : FCV α) (off : Nat)
    (ys : List α) : Option (FCV α × Nat) :=
  if ys.isEmpty then some (v, off)
  else if v.current_size + ys.length ≤ Capacity then
    some (⟨writeRun (shiftRN off ys.length v.current_size v.elements) off ys,
      v.current_size + ys.length⟩, off)
  else none

/-- `erase(position)`: `assert(position != end())`; move each element of
`[off + 1, size)` one slot left, destroy the slot `size - 1`, decrement
`current_size`.  Returns `begin() + (position - begin())` = `off`. -/
def fcvErase1 {α : Type} [Inhabited α] (v : FCV α) (off : Nat) : Option (FCV α × Nat) :=
  if off = v.current_size then none
  else
    some (⟨shiftL 1 (v.current_size - 1 - off) off v.elements, v.current_size - 1⟩, off)

/-- `erase(first, last)`: early return of the `first` offset when
`first == last`; else `n = last - first`, shift `[last, size)` left by `n`,
destroy the trailing `n` slots, `current_size -= n`. -/
def fcvEraseRange {α : Type} [Inhabited α] (v : FCV α) (first last : Nat) : FCV α × Nat :=
  if first = last then (v, first)
  else
    (⟨shiftL (last - first) (v.current_size - (last - first) - first) first v.elements,
      v.current_size - (last - first)⟩, first)

/-- `resize(new_size)`: `assert(new_size <= capacity())`; when shrinking,
destroys the slots `[new_size, size)` (their raw bytes remain); when growing,
default-constructs the slots `[size, new_size)`; finally
`current_size = new_size`. -/
def fcvResize {α : Type} [Inhabited α] (Capacity : Nat) (v : FCV α) (n : Nat) :
    Option (FCV α) :=
  if n ≤ Capacity then
    if n < v.current_size then some ⟨v.elements, n⟩
    else if v.current_size < n then
      some ⟨writeRun v.elements v.current_size (List.replicate (n - v.current_size) default), n⟩
    else some v
  else none

/-- Construction from an iterator range (`FixedCapacityVector(first, last)`),
with the range contents `ys`; constructs the elements into slots `0, 1, ...`.
The initializer-list constructor delegates to this one. -/
def fcvFromRange {α : Type} [Inhabited α] (ys : List α) : FCV α :=
  ⟨writeRun [] 0 ys, ys.length⟩

/-- Construction with `initial_size` copies of `value`. -/
def fcvFromVal {α : Type} [Inhabited α] (n : Nat) (x : α) : FCV α :=
  ⟨writeRun [] 0 (List.replicate n x), n⟩

/-- Construction with `initial_size` default-inserted elements. -/
def fcvFromSize {α : Type} [Inhabited α] (n : Nat) : FCV α :=
  ⟨writeRun [] 0 (List.replicate n (default : α)), n⟩

/-- The copy constructor: copy-constructs each of the other instance's live
elements into fresh inline storage. -/
def fcvCopyCtor {α : Type} [Inhabited α] (v : FCV α) : FCV α :=
  ⟨writeRun [] 0 (v.elements.take v.current_size), v.current_size⟩

/-- The move constructor: the new vector takes `other.current_size`, sets
`other.current_size = 0` (before the loop), then move-constructs each of the
other instance's elements into fresh inline storage.  Returns
(new vector, moved-from source). -/
def fcvMoveCtor {α : Type} [Inhabited α] (v : FCV α) : FCV α × FCV α :=
  (⟨writeRun [] 0 (v.elements.take v.current_size), v.current_size⟩, ⟨v.elements, 0⟩)

/-- The indices destroyed (in order) by `FixedCapacityVector::resize`:
`for (i = new_size; i < size(); ++i) destroy(begin() + i);`
(and no destroy at all when not shrinking). -/
def fcvResizeDestroyedIdx (sz n : Nat) : List Nat :=
  if n < sz then destroySeq n sz else []

/-! ## StackAssistedVector

`StackAssistedVector<T, StackCapacity, Allocator>` from
`include/vector_variations/stack_assisted_vector.h`.  `dynamic_capacity`
models the pair of the `dynamic_array` pointer and the
`current_dynamic_capacity` union member: it is `none` exactly when
`dynamic_array == nullptr` (Inline state), and `some c` with
`c = current_dynamic_capacity` in the Heap state.  `buffer` is the active
storage (`fixed_array` when Inline, the heap array when Heap). -/

structure SAV (α : Type) where
  dynamic_capacity : Option Nat
  buffer : List α
  current_size : Nat
deriving DecidableEq

/-- `size()`. -/
def SAV.size (s : SAV α) : Nat := s.current_size

/-- `capacity()`: `dynamic_array ? current_dynamic_capacity : Capacity`. -/
def SAV.capacity (Cap : Nat) (s : SAV α) : Nat :=
  match s.dynamic_capacity with
  | some c => c
  | none => Cap

/-- The sequence of live elements, in index order. -/
def SAV.toList (s : SAV α) : List α := s.buffer.take s.current_size

/-- The default constructor. -/
def savEmpty {α : Type} : SAV α := ⟨none, [], 0⟩

/-- `reserve(new_capacity)`: no-op when `new_capacity <= capacity()`; else
allocate a heap array of `new_capacity` slots, move the `current_size` live
elements into it (`move_from_then_destroy_range`), deallocate any previous
heap array, and adopt the new one. -/
def savReserve {α : Type} (Cap : Nat) (s : SAV α) (new_capacity : Nat) : SAV α :=
  if new_capacity ≤ SAV.capacity Cap s then s
  else ⟨some new_capacity, s.buffer.take s.current_size, s.current_size⟩

/-- `push_back(element)`: if `current_size == capacity()` then
`reserve(2 * capacity())`; then construct at `begin() + current_size++`. -/
def savPushBack {α : Type} [Inhabited α] (Cap : Nat) (s : SAV α) (x : α) : SAV α :=
  let t := if s.current_size = SAV.capacity Cap s
    then savReserve Cap s (2 * SAV.capacity Cap s) else s
  ⟨t.dynamic_capacity, writeSlot t.buffer t.current_size x, t.current_size + 1⟩

/-- `emplace_back(args...)`: the same grow-then-construct-at-end path as
`push_back`, with the element built in place from `args`; modeled with the
constructed value `x`. -/
def savEmplaceBack {α : Type} [Inhabited α] (Cap : Nat) (s : SAV α) (x : α) : SAV α :=
  savPushBack Cap s x

/-- `pop_back()`: `assert(!empty())`; destroy the last element. -/
def savPopBack {α : Type} (s : SAV α) : Option (SAV α) :=
  if s.current_size = 0 then none
  else some ⟨s.dynamic_capacity, s.buffer, s.current_size - 1⟩

/-- `clear()`: destroy every element, `current_size = 0`. -/
def savClear {α : Type} (s : SAV α) : SAV α := ⟨s.dynamic_capacity, s.buffer, 0⟩

/-- `insert(position, element)` (copy and move overloads): save
`offset = position - begin()`; if `current_size == capacity()` then
`reserve(2 * size())`; shift `[offset, size)` right one slot; construct `x`
at `begin() + offset`; return `begin() + offset`. -/
def savInsert1 {α : Type} [Inhabited α] (Cap : Nat) (s : SAV α) (off : Nat) (x : α) :
    SAV α × Nat :=
  let t := if s.current_size = SAV.capacity Cap s
    then savReserve Cap s (2 * s.current_size) else s
  (⟨t.dynamic_capacity, writeSlot (shiftRN off 1 t.current_size t.buffer) off x,
    t.current_size + 1⟩, off)

/-- `insert(position, n, element)`: early return of `begin() + offset` when
`n == 0`; if `current_size + n > capacity()`, double the capacity until it
reaches `current_size + n` and `reserve` that; shift right by `n`; write `n`
copies of `x`. -/
def savInsertN {α : Type} [Inhabited α] (Cap : Nat) (s : SAV α) (off n : Nat) (x : α) :
    SAV α × Nat :=
  if n = 0 then (s, off)
  else
    let t := if SAV.capacity Cap s < s.current_size + n
      then savReserve Cap s (newCapFor (SAV.capacity Cap s) (s.current_size + n)) else s
    (⟨t.dynamic_capacity, writeRun (shiftRN off n t.current_size t.buffer) off
        (List.replicate n x), t.current_size + n⟩, off)

/-- `insert(position, first, last)`: early return when `first == last`; else
the same grow-shift-write sequence with the range contents `ys`. -/
def savInsertRange {α : Type} [Inhabited α] (Cap : Nat) (s : SAV α) (off : Nat) (ys : List α) :
    SAV α × Nat :=
  if ys.isEmpty then (s, off)
  else
    let t := if SAV.capacity Cap s < s.current_size + ys.length
      then savReserve Cap s (newCapFor (SAV.capacity Cap s) (s.current_size + ys.length)) else s
    (⟨t.dynamic_capacity, writeRun (shiftRN off ys.length t.current_size t.buffer) off ys,
      t.current_size + ys.length⟩, off)

/-- `erase(position)`: `assert(position != end())`; identical left shift and
trailing destroy as the fixed-capacity version. -/
def savErase1 {α : Type} [Inhabited α] (s : SAV α) (off : Nat) : Option (SAV α × Nat) :=
  if off = s.current_size then none
  else
    some (⟨s.dynamic_capacity, shiftL 1 (s.current_size - 1 - off) off s.buffer,
      s.current_size - 1⟩, off)

/-- `erase(first, last)`: early return when `first == last`; else shift left
by `n = last - first` and destroy the trailing `n` slots. -/
def savEraseRange {α : Type} [Inhabited α] (s : SAV α) (first last : Nat) : SAV α × Nat :=
  if first = last then (s, first)
  else
    (⟨s.dynamic_capacity,
      shiftL (last - first) (s.current_size - (last - first) - first) first s.buffer,
      s.current_size - (last - first)⟩, first)

/-- `resize(new_size)`: when shrinking, destroys the slots
`[new_size, size)`; when growing, `reserve(new_size)` then default-construct
`[size, new_size)`; finally `current_size = new_size`. -/
def savResize {α : Type} [Inhabited α] (Cap : Nat) (s : SAV α) (n : Nat) : SAV α :=
  if n < s.current_size then ⟨s.dynamic_capacity, s.buffer, n⟩
  else if s.current_size < n then
    let t := savReserve Cap s n
    ⟨t.dynamic_capacity, writeRun t.buffer t.current_size
      (List.replicate (n - t.current_size) default), n⟩
  else s

/-- `resize(new_size, filler_value)`: as `resize(new_size)` but appends
copies of `filler_value` when growing.  (When shrinking, its destroy loop
starts at `new_size + 1`; the destroyed indices are modeled separately by
`savResizeFillDestroyedIdx`.  The loop bound difference does not change the
live prefix `[0, new_size)`.) -/
def savResizeFill {α : Type} [Inhabited α] (Cap : Nat) (s : SAV α) (n : Nat) (x : α) : SAV α :=
  if n < s.current_size then ⟨s.dynamic_capacity, s.buffer, n⟩
  else if s.current_size < n then
    let t := savReserve Cap s n
    ⟨t.dynamic_capacity, writeRun t.buffer t.current_size
      (List.replicate (n - t.current_size) x), n⟩
  else s

/-- The indices destroyed (in order) by `StackAssistedVector::resize(new_size)`
when shrinking: `for (i = new_size; i < size(); ++i) destroy(begin() + i);`. -/
def savResizeDestroyedIdx (sz n : Nat) : List Nat :=
  if n < sz then destroySeq n sz else []

/-- The indices destroyed (in order) by
`StackAssistedVector::resize(new_size, filler_value)` when shrinking:
`for (i = new_size + 1; i < size(); ++i) destroy(begin() + i);` — the loop
starts at `new_size + 1`. -/
def savResizeFillDestroyedIdx (sz n : Nat) : List Nat :=
  if n < sz then destroySeq (n + 1) sz else []

/-- `shrink_to_fit()`: no-op when `size == capacity`; when `size <=
StackCapacity` and a heap array is held, move the elements back into
`fixed_array`, deallocate the heap array, set `dynamic_array = nullptr`;
otherwise move into a freshly allocated heap array of exactly `size` slots.
(The deallocation on the move-back-inline path is modeled as intended; the
source's call there, `allocator_traits::deallocate(dynamic_array,
dynamic_capacity)`, omits the allocator argument and does not compile when
instantiated — see the C6 analysis.) -/
def savShrinkToFit {α : Type} (Cap : Nat) (s : SAV α) : SAV α :=
  if s.current_size = SAV.capacity Cap s then s
  else if s.current_size ≤ Cap then
    match s.dynamic_capacity with
    | some _ => ⟨none, s.buffer.take s.current_size, s.current_size⟩
    | none => s
  else ⟨some s.current_size, s.buffer.take s.current_size, s.current_size⟩

/-- The move constructor: copies `dynamic_array` and `current_size`; in the
Heap state it adopts the heap array (copying `current_dynamic_capacity`) and
resets the source to `current_size = 0`, `dynamic_array = nullptr`; in the
Inline state it move-constructs each element individually into the new
instance's `fixed_array`, and the source is left untouched (its
`current_size` is not reset).  Returns (new vector, moved-from source). -/
def savMoveCtor {α : Type} [Inhabited α] (s : SAV α) : SAV α × SAV α :=
  match s.dynamic_capacity with
  | some c => (⟨some c, s.buffer, s.current_size⟩, ⟨none, [], 0⟩)
  | none => (⟨none, writeRun [] 0 (s.buffer.take s.current_size), s.current_size⟩, s)

/-- Construction from an iterator range: `reserve(distance(first, last))`
then construct each element into slots `0, 1, ...`.  The initializer-list
constructor delegates to this one. -/
def savFromRange {α : Type} [Inhabited α] (Cap : Nat) (ys : List α) : SAV α :=
  let t := savReserve Cap savEmpty ys.length
  ⟨t.dynamic_capacity, writeRun t.buffer 0 ys, ys.length⟩

/-- Construction with `initial_size` default-inserted elements:
`reserve(initial_size)` then construct. -/
def savFromSize {α : Type} [Inhabited α] (Cap n : Nat) : SAV α :=
  let t := savReserve Cap (savEmpty : SAV α) n
  ⟨t.dynamic_capacity, writeRun t.buffer 0 (List.replicate n (default : α)), n⟩

/-- The copy constructor: `reserve(other.size())` then copy-construct each
live element. -/
def savCopyCtor {α : Type} [Inhabited α] (Cap : Nat) (s : SAV α) : SAV α :=
  let t := savReserve Cap savEmpty s.current_size
  ⟨t.dynamic_capacity, writeRun t.buffer 0 (s.buffer.take s.current_size), s.current_size⟩

/-! ## The reference growable array and operation sequences

Claim C1 compares the two containers against "a reference growable array
subjected to the identical sequence".  `refStep` is that reference: it
follows the spec's words (standard growable-array semantics on the element
sequence), not the source loops. -/

/-- One operation of a `push_back` / `insert` / `erase` / `resize` /
`pop_back` / `clear` sequence. -/
inductive VOp (α : Type) where
  | push (x : α)
  | ins1 (off : Nat) (x : α)
  | insN (off n : Nat) (x : α)
  | insR (off : Nat) (ys : List α)
  | del1 (off : Nat)
  | delR (first last : Nat)
  | rsz (n : Nat)
  | rszF (n : Nat) (x : α)
  | pop
  | clr

/-- One step of the reference growable array.  Returns the new contents and
the offset from `begin()` of the returned iterator (`none` for operations
returning no iterator); the result is `none` when the operation's arguments
are invalid for the current contents. -/
def refStep {α : Type} [Inhabited α] (xs : List α) : VOp α → Option (List α × Option Nat)
  | .push x => some (xs ++ [x], none)
  | .ins1 off x =>
    if off ≤ xs.length then some (xs.take off ++ [x] ++ xs.drop off, some off) else none
  | .insN off n x =>
    if off ≤ xs.length then
      some (xs.take off ++ List.replicate n x ++ xs.drop off, some off)
    else none
  | .insR off ys =>
    if off ≤ xs.length then some (xs.take off ++ ys ++ xs.drop off, some off) else none
  | .del1 off =>
    if off < xs.length then some (xs.take off ++ xs.drop (off + 1), some off) else none
  | .delR first last =>
    if first ≤ last ∧ last ≤ xs.length then some (xs.take first ++ xs.drop last, some first)
    else none
  | .rsz n =>
    some ((if n ≤ xs.length then xs.take n
      else xs ++ List.replicate (n - xs.length) default), none)
  | .rszF n x =>
    some ((if n ≤ xs.length then xs.take n else xs ++ List.replicate (n - xs.length) x), none)
  | .pop => if xs.length = 0 then none else some (xs.take (xs.length - 1), none)
  | .clr => some ([], none)

/-- One step of a `FixedCapacityVector`.  The `if` guards encode claim C1's
hypothesis that intermediate sizes stay within capacity, together with the
iterator-validity preconditions of each operation; the underlying operation
definitions carry the source's own (weaker, cf. C3) asserts. -/
def fcvStep {α : Type} [Inhabited α] (Capacity : Nat) (v : FCV α) :
    VOp α → Option (FCV α × Option Nat)
  | .push x =>
    if v.current_size + 1 ≤ Capacity then
      (fcvPushBack Capacity v x).map (fun w => (w, none))
    else none
  | .ins1 off x =>
    if off ≤ v.current_size ∧ v.current_size + 1 ≤ Capacity then
      (fcvInsert1 Capacity v off x).map (fun p => (p.1, some p.2))
    else none
  | .insN off n x =>
    if off ≤ v.current_size then
      (fcvInsertN Capacity v off n x).map (fun p => (p.1, some p.2))
    else none
  | .insR off ys =>
    if off ≤ v.current_size then
      (fcvInsertRange Capacity v off ys).map (fun p => (p.1, some p.2))
    else none
  | .del1 off =>
    if off < v.current_size then (fcvErase1 v off).map (fun p => (p.1, some p.2)) else none
  | .delR first last =>
    if first ≤ last ∧ last ≤ v.current_size then
      some ((fcvEraseRange v first last).1, some (fcvEraseRange v first last).2)
    else none
  | .rsz n => (fcvResize Capacity v n).map (fun w => (w, none))
  | .rszF _ _ => none
  | .pop => (fcvPopBack v).map (fun w => (w, none))
  | .clr => some (fcvClear v, none)

/-- One step of a `StackAssistedVector`.  Only the iterator-validity
preconditions are guarded; capacity grows on demand. -/
def savStep {α : Type} [Inhabited α] (Cap : Nat) (s : SAV α) :
    VOp α → Option (SAV α × Option Nat)
  | .push x => some (savPushBack Cap s x, none)
  | .ins1 off x =>
    if off ≤ s.current_size then
      some ((savInsert1 Cap s off x).1, some (savInsert1 Cap s off x).2)
    else none
  | .insN off n x =>
    if off ≤ s.current_size then
      some ((savInsertN Cap s off n x).1, some (savInsertN Cap s off n x).2)
    else none
  | .insR off ys =>
    if off ≤ s.current_size then
      some ((savInsertRange Cap s off ys).1, some (savInsertRange Cap s off ys).2)
    else none
  | .del1 off =>
    if off < s.current_size then (savErase1 s off).map (fun p => (p.1, some p.2)) else none
  | .delR first last =>
    if first ≤ last ∧ last ≤ s.current_size then
      some ((savEraseRange s first last).1, some (savEraseRange s first last).2)
    else none
  | .rsz n => some (savResize Cap s n, none)
  | .rszF n x => some (savResizeFill Cap s n x, none)
  | .pop => (savPopBack s).map (fun w => (w, none))
  | .clr => some (savClear s, none)

/-- Run a whole operation sequence on the reference array, collecting the
returned iterator offsets; fails when any step fails. -/
def refRun {α : Type} [Inhabited α] : List α → List (VOp α) → Option (List α × List (Option Nat))
  | xs, [] => some (xs, [])
  | xs, op :: ops =>
    Option.bind (refStep xs op) (fun p =>
      Option.map (fun q => (q.1, p.2 :: q.2)) (refRun p.1 ops))

/-- Run a whole operation sequence on a `FixedCapacityVector`. -/
def fcvRun {α : Type} [Inhabited α] (Capacity : Nat) :
    FCV α → List (VOp α) → Option (FCV α × List (Option Nat))
  | v, [] => some (v, [])
  | v, op :: ops =>
    Option.bind (fcvStep Capacity v op) (fun p =>
      Option.map (fun q => (q.1, p.2 :: q.2)) (fcvRun Capacity p.1 ops))

/-- Run a whole operation sequence on a `StackAssistedVector`. -/
def savRun {α : Type} [Inhabited α] (Cap : Nat) :
    SAV α → List (VOp α) → Option (SAV α × List (Option Nat))
  | s, [] => some (s, [])
  | s, op :: ops =>
    Option.bind (savStep Cap s op) (fun p =>
      Option.map (fun q => (q.1, p.2 :: q.2)) (savRun Cap p.1 ops))

/-- Well-formedness of an `FCV` state: the live prefix lies within the
written region of the raw buffer. -/
def FCVWF (v : FCV α) : Prop := v.current_size ≤ v.elements.length

/-- Well-formedness of an `SAV` state: the live prefix lies within the
written region, the size is within the capacity, and the capacity is
positive (the inline array `T fixed_array[Capacity]` requires
`Capacity >= 1`). -/
def SAVWF (Cap : Nat) (s : SAV α) : Prop :=
  s.current_size ≤ s.buffer.length ∧
  s.current_size ≤ SAV.capacity Cap s ∧
  1 ≤ SAV.capacity Cap s

/-! ## BoundsCheckedVector

`BoundsCheckedVector<T, Allocator>` from
`include/vector_variations/bounds_checked_vector.h`: a `std::vector` wrapper
whose indexed accesses are bounds-checked and report provenance diagnostics.
`std::source_location` values are modeled as abstract labels (`Nat`). -/

/-- The provenance-carrying state: the wrapped vector contents,
`last_construction_info`, the optional `last_size_change` (the size before
and after the most recent size change; unset until a size change happens)
and `last_size_change_info`. -/
structure BCV (α : Type) where
  data : List α
  last_construction_info : Nat
  last_size_change : Option (Nat × Nat)
  last_size_change_info : Nat
deriving DecidableEq

/-- `check_if_out_of_bounds`: the failure condition of the indexed accesses,
`index < 0 || index >= static_cast<long long>(size())` on the signed index
type (`long long`). -/
def checkIfOutOfBounds (index : Int) (size : Nat) : Bool :=
  index < 0 || (size : Int) ≤ index

/-- `operator[](IndexWithSourceLoc)`: if the check fires, prints the
diagnostic and calls `std::exit(-1)` (modeled as `none`); otherwise returns
the accessed element together with the container, whose contents and size
the access leaves untouched. -/
def bcvSubscript {α : Type} [Inhabited α] (v : BCV α) (index : Int) : Option (α × BCV α) :=
  if checkIfOutOfBounds index v.data.length then none
  else some (v.data.getD index.toNat default, v)

/-- `front()`: delegates to `operator[]` at index `0` (with the caller's
source location). -/
def bcvFront {α : Type} [Inhabited α] (v : BCV α) : Option (α × BCV α) :=
  bcvSubscript v 0

/-- `back()`: delegates to `operator[]` at the signed index
`static_cast<long long>(size()) - 1`. -/
def bcvBack {α : Type} [Inhabited α] (v : BCV α) : Option (α × BCV α) :=
  bcvSubscript v ((v.data.length : Int) - 1)

/-- The provenance content printed on an out-of-bounds failure: the last
construction location and, when a size change has been recorded, its
before/after sizes with its location. -/
def bcvReport {α : Type} (v : BCV α) : Nat × Option ((Nat × Nat) × Nat) :=
  (v.last_construction_info, v.last_size_change.map (fun c => (c, v.last_size_change_info)))

/-- `push_back(value, curr_info)`: delegates to the wrapped vector, then
records the old/new sizes and the caller's location. -/
def bcvPushBack {α : Type} (v : BCV α) (x : α) (curr_info : Nat) : BCV α :=
  { data := v.data ++ [x],
    last_construction_info := v.last_construction_info,
    last_size_change := some (v.data.length, v.data.length + 1),
    last_size_change_info := curr_info }

/-- The iterator-range constructor (also reached by the initializer-list
constructor): wraps the range contents and records the construction site;
no size change has been recorded yet (`last_size_change_info` is a
default-constructed location, modeled as label `0`). -/
def bcvFromRange {α : Type} (ys : List α) (curr_info : Nat) : BCV α :=
  { data := ys,
    last_construction_info := curr_info,
    last_size_change := none,
    last_size_change_info := 0 }

/-- The member `swap(other, curr_info)`: captures both operands' sizes,
exchanges the wrapped vectors, and updates the size-change provenance of
BOTH operands — each with its own before/after sizes — attributing both to
`curr_info`.  Returns (this, other) after the swap. -/
def bcvMemberSwap {α : Type} (a b : BCV α) (curr_info : Nat) : BCV α × BCV α :=
  ({ data := b.data,
     last_construction_info := a.last_construction_info,
     last_size_change := some (a.data.length, b.data.length),
     last_size_change_info := curr_info },
   { data := a.data,
     last_construction_info := b.last_construction_info,
     last_size_change := some (b.data.length, a.data.length),
     last_size_change_info := curr_info })

/-- The non-member `swap(a, b, curr_info)`: delegates to `a.swap(b)` — whose
defaulted source-location argument captures the internal call site — and
then overwrites both operands' size-change locations with the outer call
site `curr_info`. -/
def bcvFriendSwap {α : Type} (a b : BCV α) (internal_info curr_info : Nat) :
    BCV α × BCV α :=
  (fun p => ({ p.1 with last_size_change_info := curr_info },
             { p.2 with last_size_change_info := curr_info }))
    (bcvMemberSwap a b internal_info)

/-! ## Reachable states (for the capacity invariant) -/

/-- `FixedCapacityVector` states reachable from the public constructors by
public operations invoked with their documented preconditions: valid
offsets, and resulting sizes within `Capacity` (§4.2 and §7 of the spec
make exceeding the capacity a programmer error the caller must not
trigger). -/
inductive FcvReach {α : Type} [Inhabited α] (Capacity : Nat) : FCV α → Prop where
  | empty : FcvReach Capacity fcvEmpty
  | fromRange (ys : List α) (hlen : ys.length ≤ Capacity) :
      FcvReach Capacity (fcvFromRange ys)
  | fromSize (n : Nat) (hn : n ≤ Capacity) : FcvReach Capacity (fcvFromSize n)
  | fromVal (n : Nat) (x : α) (hn : n ≤ Capacity) : FcvReach Capacity (fcvFromVal n x)
  | copy (v : FCV α) : FcvReach Capacity v → FcvReach Capacity (fcvCopyCtor v)
  | move (v : FCV α) : FcvReach Capacity v → FcvReach Capacity (fcvMoveCtor v).1
  | moved (v : FCV α) : FcvReach Capacity v → FcvReach Capacity (fcvMoveCtor v).2
  | step (v v' : FCV α) (op : VOp α) (r : Option Nat) :
      FcvReach Capacity v → fcvStep Capacity v op = some (v', r) → FcvReach Capacity v'

/-- `StackAssistedVector` states reachable from the public constructors by
public operations with valid arguments (`shrink_to_fit` is not included: its
deallocation call is ill-formed and does not compile when instantiated, cf.
the C6 analysis). -/
inductive SavReach {α : Type} [Inhabited α] (Cap : Nat) : SAV α → Prop where
  | empty : SavReach Cap savEmpty
  | fromRange (ys : List α) : SavReach Cap (savFromRange Cap ys)
  | fromSize (n : Nat) : SavReach Cap (savFromSize Cap n)
  | copy (s : SAV α) : SavReach Cap s → SavReach Cap (savCopyCtor Cap s)
  | move (s : SAV α) : SavReach Cap s → SavReach Cap (savMoveCtor s).1
  | moved (s : SAV α) : SavReach Cap s → SavReach Cap (savMoveCtor s).2
  | reserve (s : SAV α) (n : Nat) : SavReach Cap s → SavReach Cap (savReserve Cap s n)
  | step (s s' : SAV α) (op : VOp α) (r : Option Nat) :
      SavReach Cap s → savStep Cap s op = some (s', r) → SavReach Cap s'

theorem length_writeSlot {α : Type} [Inhabited α] (buf : List α) (i : Nat) (x : α) :
    (writeSlot buf i x).length = max buf.length (i + 1) := by
  unfold writeSlot
  split
  · simp only [List.length_set]
    omega
  · simp only [List.append_assoc, List.length_append, List.length_replicate,
      List.length_cons, List.length_nil]
    omega

theorem getElem?_writeSlot_self {α : Type} [Inhabited α] (buf : List α) (i : Nat) (x : α) :
    (writeSlot buf i x)[i]? = some x := by
  unfold writeSlot
  split
  · exact List.getElem?_set_self ‹_›
  · have hlen : (buf ++ List.replicate (i - buf.length) default).length = i := by
      simp only [List.length_append, List.length_replicate]
      omega
    rw [List.getElem?_append_right (by omega)]
    simp [hlen]

theorem getElem?_writeSlot_lt {α : Type} [Inhabited α] {buf : List α} {i j : Nat} (x : α)
    (hj : j < buf.length) (hne : j ≠ i) :
    (writeSlot buf i x)[j]? = buf[j]? := by
  unfold writeSlot
  split
  · exact List.getElem?_set_ne (Ne.symm hne)
  · rw [List.append_assoc, List.getElem?_append_left hj]

theorem getElem?_writeSlot_gt {α : Type} [Inhabited α] {buf : List α} {i j : Nat} (x : α)
    (hij : i < j) :
    (writeSlot buf i x)[j]? = buf[j]? := by
  unfold writeSlot
  split
  · exact List.getElem?_set_ne (by omega)
  · next h =>
    have h1 : ((buf ++ List.replicate (i - buf.length) default) ++ [x]).length = i + 1 := by
      simp only [List.length_append, List.length_replicate, List.length_cons, List.length_nil]
      omega
    rw [List.getElem?_eq_none (by omega), List.getElem?_eq_none (by omega)]

/-- A helper form of indexing into `List.take`. -/
theorem getElem?_take_eq {α : Type} (l : List α) (m j : Nat) :
    (l.take m)[j]? = if j < m then l[j]? else none := by
  split
  · exact List.getElem?_take_of_lt ‹_›
  · exact List.getElem?_eq_none (by simp only [List.length_take]; omega)

theorem le_length_writeRun {α : Type} [Inhabited α] (xs : List α) :
    ∀ (buf : List α) (off : Nat), buf.length ≤ (writeRun buf off xs).length := by
  induction xs with
  | nil => intro buf off; exact Nat.le_refl _
  | cons x xs ih =>
    intro buf off
    calc buf.length ≤ (writeSlot buf off x).length := by
          rw [length_writeSlot]; omega
      _ ≤ _ := ih _ _

theorem getElem?_writeRun_lt {α : Type} [Inhabited α] (xs : List α) :
    ∀ (buf : List α) (off j : Nat), j < off → j < buf.length →
      (writeRun buf off xs)[j]? = buf[j]? := by
  induction xs with
  | nil => intro buf off j _ _; rfl
  | cons x xs ih =>
    intro buf off j hj hlen
    have h1 : j < (writeSlot buf off x).length := by rw [length_writeSlot]; omega
    rw [show writeRun buf off (x :: xs) = writeRun (writeSlot buf off x) (off + 1) xs from rfl,
      ih _ _ _ (by omega) h1, getElem?_writeSlot_lt x hlen (by omega)]

theorem getElem?_writeRun_self {α : Type} [Inhabited α] (xs : List α) :
    ∀ (buf : List α) (off j : Nat), off ≤ j → j < off + xs.length →
      (writeRun buf off xs)[j]? = xs[j - off]? := by
  induction xs with
  | nil => intro _ _ j hj hj2; exact absurd hj2 (by simp; omega)
  | cons x xs ih =>
    intro buf off j hj hj2
    rw [show writeRun buf off (x :: xs) = writeRun (writeSlot buf off x) (off + 1) xs from rfl]
    rcases Nat.eq_or_lt_of_le hj with heq | hlt
    · have h1 : off < (writeSlot buf off x).length := by rw [length_writeSlot]; omega
      rw [← heq, getElem?_writeRun_lt xs (writeSlot buf off x) (off + 1) off (by omega) h1,
        getElem?_writeSlot_self, Nat.sub_self, List.getElem?_cons_zero]
    · have h1 := ih (writeSlot buf off x) (off + 1) j (by omega) (by simp at hj2 ⊢; omega)
      rw [h1, show j - off = (j - (off + 1)) + 1 from by omega, List.getElem?_cons_succ]

theorem getElem?_writeRun_ge {α : Type} [Inhabited α] (xs : List α) :
    ∀ (buf : List α) (off j : Nat), off + xs.length ≤ j →
      (writeRun buf off xs)[j]? = buf[j]? := by
  induction xs with
  | nil => intro _ _ _ _; rfl
  | cons x xs ih =>
    intro buf off j hj
    rw [show writeRun buf off (x :: xs) = writeRun (writeSlot buf off x) (off + 1) xs from rfl,
      ih _ _ _ (by simp at hj; omega), getElem?_writeSlot_gt x (by simp at hj; omega)]

/-- Net contents of a write run, as a list. -/
theorem take_writeRun {α : Type} [Inhabited α] (xs buf : List α) (off : Nat)
    (hoff : off ≤ buf.length) :
    (writeRun buf off xs).take (off + xs.length) = buf.take off ++ xs := by
  have hto : (buf.take off).length = off := List.length_take_of_le hoff
  apply List.ext_getElem?
  intro j
  rw [getElem?_take_eq]
  rcases Nat.lt_or_ge j off with hj | hj
  · rw [if_pos (by omega), getElem?_writeRun_lt xs buf off j hj (by omega),
      List.getElem?_append_left (by rw [hto]; omega),
      getElem?_take_eq, if_pos hj]
  · rcases Nat.lt_or_ge j (off + xs.length) with hj2 | hj2
    · have hL : (writeRun buf off xs)[j]? = xs[j - off]? :=
        getElem?_writeRun_self xs buf off j hj hj2
      have hR : (buf.take off ++ xs)[j]? = xs[j - off]? := by
        rw [List.getElem?_append_right (by rw [hto]; omega), hto]
      rw [if_pos hj2, hL, hR]
    · rw [if_neg (by omega)]
      exact (List.getElem?_eq_none (by
        simp only [List.length_append, List.length_take]
        omega)).symm

theorem shiftRN_spec {α : Type} [Inhabited α] (off n : Nat) :
    ∀ (it : Nat) (buf : List α), it ≤ buf.length →
      buf.length ≤ (shiftRN off n it buf).length ∧
      (∀ j, j < off + n → j < buf.length → (shiftRN off n it buf)[j]? = buf[j]?) ∧
      (∀ k, off ≤ k → k < it → (shiftRN off n it buf)[k + n]? = buf[k]?) ∧
      (∀ j, it + n ≤ j → (shiftRN off n it buf)[j]? = buf[j]?) := by
  intro it
  induction it with
  | zero =>
    intro buf _
    refine ⟨Nat.le_refl _, fun _ _ _ => rfl, fun k hk hk0 => absurd hk0 (by omega), fun _ _ => rfl⟩
  | succ it ih =>
    intro buf hit
    by_cases hoff : off < it + 1
    · have hread : it < buf.length := by omega
      set v := buf.getD it default with hv
      have hvval : buf[it]? = some v := by
        rw [hv, List.getD_eq_getElem?_getD, List.getElem?_eq_getElem hread]
        rfl
      set buf' := writeSlot buf (it + n) v with hbuf'
      have hlen' : buf'.length = max buf.length (it + n + 1) := length_writeSlot buf (it + n) v
      have hstep : shiftRN off n (it + 1) buf = shiftRN off n it buf' := by
        rw [shiftRN, if_pos hoff]
      have hit' : it ≤ buf'.length := by omega
      obtain ⟨ih1, ih2, ih3, ih4⟩ := ih buf' hit'
      rw [hstep]
      refine ⟨by omega, ?_, ?_, ?_⟩
      · intro j hj hjb
        rw [ih2 j hj (by omega), hbuf', getElem?_writeSlot_lt v hjb (by omega)]
      · intro k hk hk1
        rcases Nat.lt_or_ge k it with hlt | hge
        · rw [ih3 k hk hlt, hbuf', getElem?_writeSlot_lt v (by omega) (by omega)]
        · have hkeq : k = it := by omega
          subst hkeq
          rw [ih4 (k + n) (Nat.le_refl _), hbuf', getElem?_writeSlot_self, hvval]
      · intro j hj
        rw [ih4 j (by omega), hbuf', getElem?_writeSlot_gt v (by omega)]
    · rw [shiftRN, if_neg hoff]
      refine ⟨Nat.le_refl _, fun _ _ _ => rfl, fun k hk hk1 => absurd hk (by omega),
        fun _ _ => rfl⟩

/-- Net contents of the shift-then-write sequence performed by the inserting
operations: shift the tail `[off, sz)` up by `n = xs.length` slots, then write
the inserted values `xs` at `[off, off + n)`. -/
theorem take_shiftRN_writeRun {α : Type} [Inhabited α] (buf xs : List α) (off sz : Nat)
    (hoff : off ≤ sz) (hsz : sz ≤ buf.length) :
    (writeRun (shiftRN off xs.length sz buf) off xs).take (sz + xs.length)
      = buf.take off ++ xs ++ (buf.take sz).drop off := by
  set n := xs.length with hn
  obtain ⟨s1, s2, s3, s4⟩ := shiftRN_spec off n sz buf hsz
  set S := shiftRN off n sz buf with hS
  have hSlen : sz ≤ S.length := Nat.le_trans hsz s1
  have hto : (buf.take off).length = off := List.length_take_of_le (by omega)
  have hts : (buf.take sz).length = sz := List.length_take_of_le hsz
  have hAB : (buf.take off ++ xs).length = off + n := by
    rw [List.length_append, hto, hn]
  have hlenR : (buf.take off ++ xs ++ (buf.take sz).drop off).length = sz + n := by
    simp only [List.length_append, List.length_take, List.length_drop]
    omega
  apply List.ext_getElem?
  intro j
  rw [getElem?_take_eq]
  rcases Nat.lt_or_ge j off with hj | hj
  · have hL : (writeRun S off xs)[j]? = buf[j]? := by
      rw [getElem?_writeRun_lt xs S off j hj (by omega), s2 j (by omega) (by omega)]
    have hR : (buf.take off ++ xs ++ (buf.take sz).drop off)[j]? = buf[j]? := by
      rw [List.getElem?_append_left (by rw [hAB]; omega),
        List.getElem?_append_left (by rw [hto]; omega),
        getElem?_take_eq, if_pos hj]
    rw [if_pos (by omega), hL, hR]
  · rcases Nat.lt_or_ge j (off + n) with hj2 | hj2
    · have hL : (writeRun S off xs)[j]? = xs[j - off]? :=
        getElem?_writeRun_self xs S off j hj (by omega)
      have hR : (buf.take off ++ xs ++ (buf.take sz).drop off)[j]? = xs[j - off]? := by
        rw [List.getElem?_append_left (by rw [hAB]; omega),
          List.getElem?_append_right (by rw [hto]; omega), hto]
      rw [if_pos (by omega), hL, hR]
    · rcases Nat.lt_or_ge j (sz + n) with hj3 | hj3
      · have hL : (writeRun S off xs)[j]? = buf[j - n]? := by
          rw [getElem?_writeRun_ge xs S off j hj2]
          have h1 := s3 (j - n) (by omega) (by omega)
          rwa [show j - n + n = j from by omega] at h1
        have hR : (buf.take off ++ xs ++ (buf.take sz).drop off)[j]? = buf[j - n]? := by
          rw [List.getElem?_append_right (by rw [hAB]; omega), hAB,
            List.getElem?_drop, getElem?_take_eq, if_pos (by omega),
            show off + (j - (off + n)) = j - n from by omega]
        rw [if_pos hj3, hL, hR]
      · rw [if_neg (by omega)]
        exact (List.getElem?_eq_none (by rw [hlenR]; omega)).symm

theorem shiftL_spec {α : Type} [Inhabited α] (n : Nat) :
    ∀ (cnt pos : Nat) (buf : List α), pos + cnt + n ≤ buf.length →
      (shiftL n cnt pos buf).length = buf.length ∧
      (∀ j, j < pos → (shiftL n cnt pos buf)[j]? = buf[j]?) ∧
      (∀ k, pos ≤ k → k < pos + cnt → (shiftL n cnt pos buf)[k]? = buf[k + n]?) ∧
      (∀ j, pos + cnt ≤ j → (shiftL n cnt pos buf)[j]? = buf[j]?) := by
  intro cnt
  induction cnt with
  | zero =>
    intro pos buf _
    exact ⟨rfl, fun _ _ => rfl, fun k hk hk0 => absurd hk0 (by omega), fun _ _ => rfl⟩
  | succ cnt ih =>
    intro pos buf hlen
    have hpos : pos < buf.length := by omega
    set v := buf.getD (pos + n) default with hv
    have hvval : buf[pos + n]? = some v := by
      rw [hv, List.getD_eq_getElem?_getD, List.getElem?_eq_getElem (by omega)]
      rfl
    set buf' := writeSlot buf pos v with hbuf'
    have hlen' : buf'.length = buf.length := by
      rw [hbuf', length_writeSlot]; omega
    have hstep : shiftL n (cnt + 1) pos buf = shiftL n cnt (pos + 1) buf' := rfl
    obtain ⟨ih1, ih2, ih3, ih4⟩ := ih (pos + 1) buf' (by omega)
    rw [hstep]
    refine ⟨by omega, ?_, ?_, ?_⟩
    · intro j hj
      rw [ih2 j (by omega), hbuf', getElem?_writeSlot_lt v (by omega) (by omega)]
    · intro k hk hk1
      by_cases hke : k = pos
      · subst hke
        rw [ih2 k (by omega), hbuf', getElem?_writeSlot_self, hvval]
      · rw [ih3 k (by omega) (by omega), hbuf', getElem?_writeSlot_gt v (by omega)]
    · intro j hj
      rw [ih4 j (by omega), hbuf', getElem?_writeSlot_gt v (by omega)]

/-- Net contents of the erase shift: removing the `n` elements at positions
`[first, first + n)` from the first `sz` live slots. -/
theorem take_shiftL {α : Type} [Inhabited α] (buf : List α) (first n sz : Nat)
    (hfn : first + n ≤ sz) (hsz : sz ≤ buf.length) :
    (shiftL n (sz - n - first) first buf).take (sz - n)
      = buf.take first ++ (buf.take sz).drop (first + n) := by
  obtain ⟨s1, s2, s3, s4⟩ := shiftL_spec n (sz - n - first) first buf (by omega)
  have htf : (buf.take first).length = first := List.length_take_of_le (by omega)
  apply List.ext_getElem?
  intro j
  rw [getElem?_take_eq]
  rcases Nat.lt_or_ge j first with hj | hj
  · rw [if_pos (by omega), s2 j hj,
      List.getElem?_append_left (by rw [htf]; omega),
      getElem?_take_eq, if_pos hj]
  · rcases Nat.lt_or_ge j (sz - n) with hj2 | hj2
    · have hL := s3 j hj (by omega)
      have hR : (buf.take first ++ (buf.take sz).drop (first + n))[j]? = buf[j + n]? := by
        rw [List.getElem?_append_right (by rw [htf]; omega), htf,
          List.getElem?_drop, getElem?_take_eq, if_pos (by omega),
          show first + n + (j - first) = j + n from by omega]
      rw [if_pos hj2, hL, hR]
    · rw [if_neg (by omega)]
      exact (List.getElem?_eq_none (by
        simp only [List.length_append, List.length_take, List.length_drop]
        omega)).symm

theorem growLoop_ge : ∀ (f c t : Nat), 1 ≤ c → t ≤ c + f → t ≤ growLoop f c t := by
  intro f
  induction f with
  | zero => intro c t _ h; simpa [growLoop] using h
  | succ f ih =>
    intro c t hc h
    rw [growLoop]
    split
    · exact ih (2 * c) t (by omega) (by omega)
    · omega

theorem growLoop_ge_self : ∀ (f c t : Nat), c ≤ growLoop f c t := by
  intro f
  induction f with
  | zero => intro c t; exact Nat.le_refl _
  | succ f ih =>
    intro c t
    rw [growLoop]
    split
    · exact Nat.le_trans (by omega) (ih (2 * c) t)
    · exact Nat.le_refl _

theorem newCapFor_ge {c : Nat} (t : Nat) (hc : 1 ≤ c) : t ≤ newCapFor c t :=
  growLoop_ge t c t hc (by omega)

theorem newCapFor_ge_self (c t : Nat) : c ≤ newCapFor c t :=
  growLoop_ge_self t c t

/-! ## Per-operation contents lemmas -/

theorem writeRun_singleton {α : Type} [Inhabited α] (buf : List α) (off : Nat) (x : α) :
    writeRun buf off [x] = writeSlot buf off x := rfl

theorem take_writeSlot_append {α : Type} [Inhabited α] (buf : List α) (sz : Nat) (x : α)
    (h : sz ≤ buf.length) :
    (writeSlot buf sz x).take (sz + 1) = buf.take sz ++ [x] := by
  have ht := take_writeRun [x] buf sz h
  rw [writeRun_singleton] at ht
  simpa using ht

theorem insert_one_toList {α : Type} [Inhabited α] (buf : List α) (off sz : Nat) (x : α)
    (hoff : off ≤ sz) (hsz : sz ≤ buf.length) :
    (writeSlot (shiftRN off 1 sz buf) off x).take (sz + 1)
      = (buf.take sz).take off ++ [x] ++ (buf.take sz).drop off := by
  have ht := take_shiftRN_writeRun buf [x] off sz hoff hsz
  rw [writeRun_singleton] at ht
  simp only [List.length_cons, List.length_nil, Nat.zero_add] at ht
  rw [ht, List.take_take, Nat.min_eq_left hoff]

theorem insert_many_toList {α : Type} [Inhabited α] (buf xs : List α) (off sz : Nat)
    (hoff : off ≤ sz) (hsz : sz ≤ buf.length) :
    (writeRun (shiftRN off xs.length sz buf) off xs).take (sz + xs.length)
      = (buf.take sz).take off ++ xs ++ (buf.take sz).drop off := by
  rw [take_shiftRN_writeRun buf xs off sz hoff hsz, List.take_take, Nat.min_eq_left hoff]

theorem erase_toList {α : Type} [Inhabited α] (buf : List α) (first n sz : Nat)
    (hfn : first + n ≤ sz) (hsz : sz ≤ buf.length) :
    (shiftL n (sz - n - first) first buf).take (sz - n)
      = (buf.take sz).take first ++ (buf.take sz).drop (first + n) := by
  rw [take_shiftL buf first n sz hfn hsz, List.take_take, Nat.min_eq_left (by omega)]

theorem length_toList_fcv {α : Type} (v : FCV α) (hwf : FCVWF v) :
    v.toList.length = v.current_size := by
  rw [FCV.toList, List.length_take]
  exact Nat.min_eq_left hwf

theorem length_toList_sav {α : Type} (s : SAV α) (h : s.current_size ≤ s.buffer.length) :
    s.toList.length = s.current_size := by
  rw [SAV.toList, List.length_take]
  exact Nat.min_eq_left h

theorem le_length_of_take_eq {α : Type} {X R : List α} {m : Nat} (h : X.take m = R)
    (hR : m ≤ R.length) : m ≤ X.length := by
  have h2 := congrArg List.length h
  rw [List.length_take] at h2
  omega

/-! ## Single-step simulation: FixedCapacityVector refines the reference -/

/-- One guarded `FixedCapacityVector` step simulates one reference step:
same resulting element sequence, same returned iterator offset. -/
theorem fcvStep_sim {α : Type} [Inhabited α] (Capacity : Nat) (v : FCV α) (op : VOp α)
    (v' : FCV α) (r : Option Nat) (hwf : FCVWF v)
    (h : fcvStep Capacity v op = some (v', r)) :
    refStep v.toList op = some (v'.toList, r) ∧ FCVWF v' ∧
      (v.current_size ≤ Capacity → v'.current_size ≤ Capacity) := by
  obtain ⟨E, sz⟩ := v
  simp only [FCVWF] at hwf
  have hlen : (List.take sz E).length = sz := by simp only [List.length_take]; omega
  cases op with
  | push x =>
    simp only [fcvStep, fcvPushBack] at h
    by_cases hg : sz + 1 ≤ Capacity
    · rw [if_pos hg, if_pos (by omega)] at h
      simp only [Option.map_some', Option.some.injEq, Prod.mk.injEq] at h
      obtain ⟨rfl, rfl⟩ := h
      have ht := take_writeSlot_append E sz x hwf
      refine ⟨?_, ?_, fun _ => hg⟩
      · dsimp only [refStep, FCV.toList]
        rw [ht]
      · show sz + 1 ≤ (writeSlot E sz x).length
        rw [length_writeSlot]
        omega
    · rw [if_neg hg] at h
      exact absurd h (by simp)
  | ins1 off x =>
    simp only [fcvStep, fcvInsert1] at h
    by_cases hg : off ≤ sz ∧ sz + 1 ≤ Capacity
    · obtain ⟨hoff, hcap⟩ := hg
      rw [if_pos ⟨hoff, hcap⟩, if_pos (by omega)] at h
      simp only [Option.map_some', Option.some.injEq, Prod.mk.injEq] at h
      obtain ⟨rfl, rfl⟩ := h
      have ht := insert_one_toList E off sz x hoff hwf
      have hlen2 : ((E.take sz).take off ++ [x] ++ (E.take sz).drop off).length = sz + 1 := by
        simp only [List.length_append, List.length_take, List.length_cons, List.length_nil,
          List.length_drop]
        omega
      refine ⟨?_, ?_, fun _ => hcap⟩
      · dsimp only [refStep, FCV.toList]
        rw [if_pos (by rw [hlen]; omega), ht]
      · exact le_length_of_take_eq ht (by rw [hlen2])
    · rw [if_neg hg] at h
      exact absurd h (by simp)
  | insN off n x =>
    simp only [fcvStep, fcvInsertN] at h
    by_cases hoff : off ≤ sz
    swap
    · rw [if_neg hoff] at h; exact absurd h (by simp)
    rw [if_pos hoff] at h
    by_cases hcap : sz + n ≤ Capacity
    swap
    · rw [if_neg hcap] at h; exact absurd h (by simp)
    rw [if_pos hcap] at h
    by_cases hn : n = 0
    · rw [if_pos hn] at h
      simp only [Option.map_some', Option.some.injEq, Prod.mk.injEq] at h
      obtain ⟨rfl, rfl⟩ := h
      subst hn
      refine ⟨?_, hwf, fun hh => hh⟩
      dsimp only [refStep, FCV.toList]
      rw [if_pos (by rw [hlen]; omega), List.replicate_zero, List.append_nil,
        List.take_append_drop]
    · rw [if_neg hn] at h
      simp only [Option.map_some', Option.some.injEq, Prod.mk.injEq] at h
      obtain ⟨rfl, rfl⟩ := h
      have ht := insert_many_toList E (List.replicate n x) off sz hoff hwf
      rw [List.length_replicate] at ht
      have hlen2 : ((E.take sz).take off ++ List.replicate n x ++ (E.take sz).drop off).length
          = sz + n := by
        simp only [List.length_append, List.length_take, List.length_replicate,
          List.length_drop]
        omega
      refine ⟨?_, ?_, fun _ => hcap⟩
      · dsimp only [refStep, FCV.toList]
        rw [if_pos (by rw [hlen]; omega), ht]
      · exact le_length_of_take_eq ht (by rw [hlen2])
  | insR off ys =>
    simp only [fcvStep, fcvInsertRange] at h
    by_cases hoff : off ≤ sz
    swap
    · rw [if_neg hoff] at h; exact absurd h (by simp)
    rw [if_pos hoff] at h
    cases ys with
    | nil =>
      rw [if_pos (by simp : ([] : List α).isEmpty = true)] at h
      simp only [Option.map_some', Option.some.injEq, Prod.mk.injEq] at h
      obtain ⟨rfl, rfl⟩ := h
      refine ⟨?_, hwf, fun hh => hh⟩
      dsimp only [refStep, FCV.toList]
      rw [if_pos (by rw [hlen]; omega), List.append_nil, List.take_append_drop]
    | cons y yt =>
      rw [if_neg (by simp)] at h
      by_cases hcap : sz + (y :: yt).length ≤ Capacity
      swap
      · rw [if_neg hcap] at h; exact absurd h (by simp)
      rw [if_pos hcap] at h
      simp only [Option.map_some', Option.some.injEq, Prod.mk.injEq] at h
      obtain ⟨rfl, rfl⟩ := h
      have ht := insert_many_toList E (y :: yt) off sz hoff hwf
      have hlen2 : ((E.take sz).take off ++ (y :: yt) ++ (E.take sz).drop off).length
          = sz + (y :: yt).length := by
        simp only [List.length_append, List.length_take, List.length_cons, List.length_drop]
        omega
      refine ⟨?_, ?_, fun _ => hcap⟩
      · dsimp only [refStep, FCV.toList]
        rw [if_pos (by rw [hlen]; omega), ht]
      · exact le_length_of_take_eq ht (by rw [hlen2])
  | del1 off =>
    simp only [fcvStep, fcvErase1] at h
    by_cases hoff : off < sz
    swap
    · rw [if_neg hoff] at h; exact absurd h (by simp)
    rw [if_pos hoff, if_neg (by omega)] at h
    simp only [Option.map_some', Option.some.injEq, Prod.mk.injEq] at h
    obtain ⟨rfl, rfl⟩ := h
    have ht := erase_toList E off 1 sz (by omega) hwf
    have hlen2 : ((E.take sz).take off ++ (E.take sz).drop (off + 1)).length = sz - 1 := by
      simp only [List.length_append, List.length_take, List.length_drop]
      omega
    refine ⟨?_, ?_, fun hh => Nat.le_trans (Nat.sub_le _ _) hh⟩
    · dsimp only [refStep, FCV.toList]
      rw [if_pos (by rw [hlen]; omega), ht]
    · exact le_length_of_take_eq ht (by rw [hlen2])
  | delR first last =>
    simp only [fcvStep, fcvEraseRange] at h
    by_cases hg : first ≤ last ∧ last ≤ sz
    swap
    · rw [if_neg hg] at h; exact absurd h (by simp)
    obtain ⟨h1, h2⟩ := hg
    rw [if_pos ⟨h1, h2⟩] at h
    by_cases heq : first = last
    · rw [if_pos heq] at h
      simp only [Option.some.injEq, Prod.mk.injEq] at h
      obtain ⟨rfl, rfl⟩ := h
      subst heq
      refine ⟨?_, hwf, fun hh => hh⟩
      dsimp only [refStep, FCV.toList]
      rw [if_pos ⟨Nat.le_refl _, by rw [hlen]; omega⟩, List.take_append_drop]
    · rw [if_neg heq] at h
      simp only [Option.some.injEq, Prod.mk.injEq] at h
      obtain ⟨rfl, rfl⟩ := h
      have ht := erase_toList E first (last - first) sz (by omega) hwf
      rw [show first + (last - first) = last from by omega] at ht
      have hlen2 : ((E.take sz).take first ++ (E.take sz).drop last).length
          = sz - (last - first) := by
        simp only [List.length_append, List.length_take, List.length_drop]
        omega
      refine ⟨?_, ?_, fun hh => Nat.le_trans (Nat.sub_le _ _) hh⟩
      · dsimp only [refStep, FCV.toList]
        rw [if_pos ⟨h1, by rw [hlen]; omega⟩, ht]
      · exact le_length_of_take_eq ht (by rw [hlen2])
  | rsz n =>
    simp only [fcvStep, fcvResize] at h
    by_cases hcap : n ≤ Capacity
    swap
    · rw [if_neg hcap] at h; exact absurd h (by simp)
    rw [if_pos hcap] at h
    rcases Nat.lt_trichotomy n sz with h1 | h1 | h1
    · rw [if_pos h1] at h
      simp only [Option.map_some', Option.some.injEq, Prod.mk.injEq] at h
      obtain ⟨rfl, rfl⟩ := h
      refine ⟨?_, show n ≤ E.length by omega, fun _ => hcap⟩
      dsimp only [refStep, FCV.toList]
      rw [if_pos (by rw [hlen]; omega), List.take_take, Nat.min_eq_left (by omega)]
    · rw [if_neg (by omega), if_neg (by omega)] at h
      simp only [Option.map_some', Option.some.injEq, Prod.mk.injEq] at h
      obtain ⟨rfl, rfl⟩ := h
      refine ⟨?_, hwf, fun hh => hh⟩
      dsimp only [refStep, FCV.toList]
      rw [if_pos (by rw [hlen]; omega), List.take_take, Nat.min_eq_left (by omega)]
      subst h1
      rfl
    · rw [if_neg (by omega), if_pos h1] at h
      simp only [Option.map_some', Option.some.injEq, Prod.mk.injEq] at h
      obtain ⟨rfl, rfl⟩ := h
      have ht := take_writeRun (List.replicate (n - sz) default) E sz hwf
      rw [List.length_replicate, show sz + (n - sz) = n from by omega] at ht
      refine ⟨?_, ?_, fun _ => hcap⟩
      · dsimp only [refStep, FCV.toList]
        rw [if_neg (by rw [hlen]; omega), ht, hlen]
      · exact le_length_of_take_eq ht
          (by simp only [List.length_append, List.length_take, List.length_replicate]; omega)
  | rszF n x => exact absurd h (by simp [fcvStep])
  | pop =>
    simp only [fcvStep, fcvPopBack] at h
    by_cases hz : sz = 0
    · rw [if_pos hz] at h; exact absurd h (by simp)
    · rw [if_neg hz] at h
      simp only [Option.map_some', Option.some.injEq, Prod.mk.injEq] at h
      obtain ⟨rfl, rfl⟩ := h
      refine ⟨?_, show sz - 1 ≤ E.length by omega,
        fun hh => Nat.le_trans (Nat.sub_le _ _) hh⟩
      dsimp only [refStep, FCV.toList]
      rw [if_neg (by rw [hlen]; omega), hlen, List.take_take, Nat.min_eq_left (by omega)]
  | clr =>
    simp only [fcvStep, fcvClear] at h
    simp only [Option.some.injEq, Prod.mk.injEq] at h
    obtain ⟨rfl, rfl⟩ := h
    refine ⟨?_, Nat.zero_le _, fun _ => Nat.zero_le _⟩
    dsimp only [refStep, FCV.toList]
    rw [List.take_zero]

/-! ## Per-operation lemmas for StackAssistedVector -/

theorem capacity_congr {α : Type} {Cap : Nat} {s t : SAV α}
    (h : s.dynamic_capacity = t.dynamic_capacity) :
    SAV.capacity Cap s = SAV.capacity Cap t := by
  unfold SAV.capacity
  rw [h]

theorem savReserve_facts {α : Type} (Cap : Nat) (s : SAV α) (m : Nat)
    (h : s.current_size ≤ s.buffer.length) :
    (savReserve Cap s m).current_size = s.current_size ∧
    (savReserve Cap s m).buffer.take (savReserve Cap s m).current_size = s.toList ∧
    (savReserve Cap s m).current_size ≤ (savReserve Cap s m).buffer.length ∧
    (m ≤ SAV.capacity Cap s → SAV.capacity Cap (savReserve Cap s m) = SAV.capacity Cap s) ∧
    (SAV.capacity Cap s < m → SAV.capacity Cap (savReserve Cap s m) = m) := by
  by_cases hm : m ≤ SAV.capacity Cap s
  · have he : savReserve Cap s m = s := by
      unfold savReserve
      rw [if_pos hm]
    rw [he]
    exact ⟨rfl, rfl, h, fun _ => rfl, fun hh => absurd hm (by omega)⟩
  · have he : savReserve Cap s m
        = ⟨some m, s.buffer.take s.current_size, s.current_size⟩ := by
      unfold savReserve
      rw [if_neg hm]
    rw [he]
    refine ⟨rfl, ?_, ?_, fun hh => absurd hh hm, fun _ => rfl⟩
    · show (s.buffer.take s.current_size).take s.current_size = s.toList
      rw [List.take_take, Nat.min_self]
      rfl
    · show s.current_size ≤ (s.buffer.take s.current_size).length
      rw [List.length_take]
      omega

theorem savPushBack_spec {α : Type} [Inhabited α] (Cap : Nat) (s : SAV α) (x : α)
    (hwf : SAVWF Cap s) :
    (savPushBack Cap s x).toList = s.toList ++ [x] ∧
      (savPushBack Cap s x).current_size = s.current_size + 1 ∧
      SAVWF Cap (savPushBack Cap s x) ∧
      SAV.capacity Cap (savPushBack Cap s x)
        = (if s.current_size = SAV.capacity Cap s then 2 * SAV.capacity Cap s
           else SAV.capacity Cap s) := by
  obtain ⟨hb, hc, hcpos⟩ := hwf
  by_cases hg : s.current_size = SAV.capacity Cap s
  · obtain ⟨r1, r2, r3, _, r5⟩ := savReserve_facts Cap s (2 * SAV.capacity Cap s) hb
    set t := savReserve Cap s (2 * SAV.capacity Cap s) with hT
    have he : savPushBack Cap s x
        = ⟨t.dynamic_capacity, writeSlot t.buffer t.current_size x, t.current_size + 1⟩ := by
      unfold savPushBack
      rw [if_pos hg]
    rw [he, if_pos hg]
    have hcap : SAV.capacity Cap t = 2 * SAV.capacity Cap s := r5 (by omega)
    have ht := take_writeSlot_append t.buffer t.current_size x r3
    rw [r2] at ht
    have hcapl : SAV.capacity Cap
        (⟨t.dynamic_capacity, writeSlot t.buffer t.current_size x,
          t.current_size + 1⟩ : SAV α) = SAV.capacity Cap t := capacity_congr rfl
    refine ⟨ht, ?_, ⟨?_, ?_, ?_⟩, ?_⟩
    · show t.current_size + 1 = s.current_size + 1
      rw [r1]
    · show t.current_size + 1 ≤ (writeSlot t.buffer t.current_size x).length
      rw [length_writeSlot]
      omega
    · show t.current_size + 1 ≤ SAV.capacity Cap _
      rw [hcapl, hcap, r1]
      omega
    · show 1 ≤ SAV.capacity Cap _
      rw [hcapl, hcap]
      omega
    · show SAV.capacity Cap _ = 2 * SAV.capacity Cap s
      rw [hcapl, hcap]
  · have he : savPushBack Cap s x
        = ⟨s.dynamic_capacity, writeSlot s.buffer s.current_size x, s.current_size + 1⟩ := by
      unfold savPushBack
      rw [if_neg hg]
    rw [he, if_neg hg]
    have ht := take_writeSlot_append s.buffer s.current_size x hb
    have hcapl : SAV.capacity Cap
        (⟨s.dynamic_capacity, writeSlot s.buffer s.current_size x,
          s.current_size + 1⟩ : SAV α) = SAV.capacity Cap s := capacity_congr rfl
    refine ⟨ht, rfl, ⟨?_, ?_, ?_⟩, ?_⟩
    · show s.current_size + 1 ≤ (writeSlot s.buffer s.current_size x).length
      rw [length_writeSlot]
      omega
    · show s.current_size + 1 ≤ SAV.capacity Cap _
      rw [hcapl]
      omega
    · show 1 ≤ SAV.capacity Cap _
      rw [hcapl]
      exact hcpos
    · exact hcapl

theorem savInsert1_spec {α : Type} [Inhabited α] (Cap : Nat) (s : SAV α) (off : Nat) (x : α)
    (hoff : off ≤ s.current_size) (hwf : SAVWF Cap s) :
    (savInsert1 Cap s off x).1.toList = s.toList.take off ++ [x] ++ s.toList.drop off ∧
      (savInsert1 Cap s off x).2 = off ∧
      (savInsert1 Cap s off x).1.current_size = s.current_size + 1 ∧
      SAVWF Cap (savInsert1 Cap s off x).1 := by
  obtain ⟨hb, hc, hcpos⟩ := hwf
  have hstl : s.toList.length = s.current_size := length_toList_sav s hb
  by_cases hg : s.current_size = SAV.capacity Cap s
  · obtain ⟨r1, r2, r3, _, r5⟩ := savReserve_facts Cap s (2 * s.current_size) hb
    set t := savReserve Cap s (2 * s.current_size) with hT
    have he : savInsert1 Cap s off x
        = (⟨t.dynamic_capacity, writeSlot (shiftRN off 1 t.current_size t.buffer) off x,
           t.current_size + 1⟩, off) := by
      unfold savInsert1
      rw [if_pos hg]
    rw [he]
    have hcap : SAV.capacity Cap t = 2 * s.current_size := r5 (by omega)
    have ht := insert_one_toList t.buffer off t.current_size x (by rw [r1]; exact hoff) r3
    rw [r2] at ht
    have hcapl : SAV.capacity Cap
        (⟨t.dynamic_capacity, writeSlot (shiftRN off 1 t.current_size t.buffer) off x,
          t.current_size + 1⟩ : SAV α) = SAV.capacity Cap t := capacity_congr rfl
    refine ⟨ht, rfl, ?_, ⟨?_, ?_, ?_⟩⟩
    · show t.current_size + 1 = s.current_size + 1
      rw [r1]
    · exact le_length_of_take_eq ht (by
        simp only [List.length_append, List.length_take, List.length_cons, List.length_nil,
          List.length_drop, hstl]
        omega)
    · show t.current_size + 1 ≤ SAV.capacity Cap _
      rw [hcapl, hcap, r1]
      omega
    · show 1 ≤ SAV.capacity Cap _
      rw [hcapl, hcap]
      omega
  · have he : savInsert1 Cap s off x
        = (⟨s.dynamic_capacity, writeSlot (shiftRN off 1 s.current_size s.buffer) off x,
           s.current_size + 1⟩, off) := by
      unfold savInsert1
      rw [if_neg hg]
    rw [he]
    have ht := insert_one_toList s.buffer off s.current_size x hoff hb
    have htl : s.buffer.take s.current_size = s.toList := rfl
    rw [htl] at ht
    have hcapl : SAV.capacity Cap
        (⟨s.dynamic_capacity, writeSlot (shiftRN off 1 s.current_size s.buffer) off x,
          s.current_size + 1⟩ : SAV α) = SAV.capacity Cap s := capacity_congr rfl
    refine ⟨ht, rfl, rfl, ⟨?_, ?_, ?_⟩⟩
    · exact le_length_of_take_eq ht (by
        simp only [List.length_append, List.length_take, List.length_cons, List.length_nil,
          List.length_drop, hstl]
        omega)
    · show s.current_size + 1 ≤ SAV.capacity Cap _
      rw [hcapl]
      omega
    · show 1 ≤ SAV.capacity Cap _
      rw [hcapl]
      exact hcpos

theorem savInsertN_spec {α : Type} [Inhabited α] (Cap : Nat) (s : SAV α) (off n : Nat) (x : α)
    (hoff : off ≤ s.current_size) (hwf : SAVWF Cap s) :
    (savInsertN Cap s off n x).1.toList
        = s.toList.take off ++ List.replicate n x ++ s.toList.drop off ∧
      (savInsertN Cap s off n x).2 = off ∧
      (savInsertN Cap s off n x).1.current_size = s.current_size + n ∧
      SAVWF Cap (savInsertN Cap s off n x).1 := by
  obtain ⟨hb, hc, hcpos⟩ := hwf
  have hstl : s.toList.length = s.current_size := length_toList_sav s hb
  by_cases hn : n = 0
  · subst hn
    have he : savInsertN Cap s off 0 x = (s, off) := by
      unfold savInsertN
      rw [if_pos rfl]
    rw [he]
    refine ⟨?_, rfl, by show s.current_size = s.current_size + 0; omega, ⟨hb, hc, hcpos⟩⟩
    rw [List.replicate_zero, List.append_nil, List.take_append_drop]
  · by_cases hg : SAV.capacity Cap s < s.current_size + n
    · obtain ⟨r1, r2, r3, _, r5⟩ :=
        savReserve_facts Cap s (newCapFor (SAV.capacity Cap s) (s.current_size + n)) hb
      set t := savReserve Cap s (newCapFor (SAV.capacity Cap s) (s.current_size + n)) with hT
      have he : savInsertN Cap s off n x
          = (⟨t.dynamic_capacity,
              writeRun (shiftRN off n t.current_size t.buffer) off (List.replicate n x),
              t.current_size + n⟩, off) := by
        unfold savInsertN
        rw [if_neg hn, if_pos hg]
      rw [he]
      have hnc := @newCapFor_ge (SAV.capacity Cap s) (s.current_size + n) hcpos
      have hcap : SAV.capacity Cap t = newCapFor (SAV.capacity Cap s) (s.current_size + n) :=
        r5 (by omega)
      have hge : s.current_size + n ≤ SAV.capacity Cap t := by
        rw [hcap]
        exact hnc
      have ht := insert_many_toList t.buffer (List.replicate n x) off t.current_size
        (by rw [r1]; exact hoff) r3
      rw [List.length_replicate, r2] at ht
      have hcapl : SAV.capacity Cap
          (⟨t.dynamic_capacity,
            writeRun (shiftRN off n t.current_size t.buffer) off (List.replicate n x),
            t.current_size + n⟩ : SAV α) = SAV.capacity Cap t := capacity_congr rfl
      refine ⟨ht, rfl, ?_, ⟨?_, ?_, ?_⟩⟩
      · show t.current_size + n = s.current_size + n
        rw [r1]
      · exact le_length_of_take_eq ht (by
          simp only [List.length_append, List.length_take, List.length_replicate,
            List.length_drop, hstl]
          omega)
      · show t.current_size + n ≤ SAV.capacity Cap _
        rw [hcapl, r1]
        omega
      · show 1 ≤ SAV.capacity Cap _
        rw [hcapl]
        omega
    · have he : savInsertN Cap s off n x
          = (⟨s.dynamic_capacity,
              writeRun (shiftRN off n s.current_size s.buffer) off (List.replicate n x),
              s.current_size + n⟩, off) := by
        unfold savInsertN
        rw [if_neg hn, if_neg hg]
      rw [he]
      have ht := insert_many_toList s.buffer (List.replicate n x) off s.current_size hoff hb
      have htl : s.buffer.take s.current_size = s.toList := rfl
      rw [List.length_replicate, htl] at ht
      have hcapl : SAV.capacity Cap
          (⟨s.dynamic_capacity,
            writeRun (shiftRN off n s.current_size s.buffer) off (List.replicate n x),
            s.current_size + n⟩ : SAV α) = SAV.capacity Cap s := capacity_congr rfl
      refine ⟨ht, rfl, rfl, ⟨?_, ?_, ?_⟩⟩
      · exact le_length_of_take_eq ht (by
          simp only [List.length_append, List.length_take, List.length_replicate,
            List.length_drop, hstl]
          omega)
      · show s.current_size + n ≤ SAV.capacity Cap _
        rw [hcapl]
        omega
      · show 1 ≤ SAV.capacity Cap _
        rw [hcapl]
        exact hcpos

theorem savInsertRange_spec {α : Type} [Inhabited α] (Cap : Nat) (s : SAV α) (off : Nat)
    (ys : List α) (hoff : off ≤ s.current_size) (hwf : SAVWF Cap s) :
    (savInsertRange Cap s off ys).1.toList = s.toList.take off ++ ys ++ s.toList.drop off ∧
      (savInsertRange Cap s off ys).2 = off ∧
      (savInsertRange Cap s off ys).1.current_size = s.current_size + ys.length ∧
      SAVWF Cap (savInsertRange Cap s off ys).1 := by
  obtain ⟨hb, hc, hcpos⟩ := hwf
  have hstl : s.toList.length = s.current_size := length_toList_sav s hb
  cases ys with
  | nil =>
    have he : savInsertRange Cap s off [] = (s, off) := by
      unfold savInsertRange
      rw [if_pos (by simp : ([] : List α).isEmpty = true)]
    rw [he]
    refine ⟨?_, rfl, by simp, ⟨hb, hc, hcpos⟩⟩
    rw [List.append_nil, List.take_append_drop]
  | cons y yt =>
    by_cases hg : SAV.capacity Cap s < s.current_size + (y :: yt).length
    · obtain ⟨r1, r2, r3, _, r5⟩ :=
        savReserve_facts Cap s
          (newCapFor (SAV.capacity Cap s) (s.current_size + (y :: yt).length)) hb
      set t := savReserve Cap s
        (newCapFor (SAV.capacity Cap s) (s.current_size + (y :: yt).length)) with hT
      have he : savInsertRange Cap s off (y :: yt)
          = (⟨t.dynamic_capacity,
              writeRun (shiftRN off (y :: yt).length t.current_size t.buffer) off (y :: yt),
              t.current_size + (y :: yt).length⟩, off) := by
        unfold savInsertRange
        rw [if_neg (by simp), if_pos hg]
      rw [he]
      have hnc := @newCapFor_ge (SAV.capacity Cap s) (s.current_size + (y :: yt).length) hcpos
      have hcap : SAV.capacity Cap t
          = newCapFor (SAV.capacity Cap s) (s.current_size + (y :: yt).length) :=
        r5 (by omega)
      have hge : s.current_size + (y :: yt).length ≤ SAV.capacity Cap t := by
        rw [hcap]
        exact hnc
      have ht := insert_many_toList t.buffer (y :: yt) off t.current_size
        (by rw [r1]; exact hoff) r3
      rw [r2] at ht
      have hcapl : SAV.capacity Cap
          (⟨t.dynamic_capacity,
            writeRun (shiftRN off (y :: yt).length t.current_size t.buffer) off (y :: yt),
            t.current_size + (y :: yt).length⟩ : SAV α) = SAV.capacity Cap t :=
        capacity_congr rfl
      refine ⟨ht, rfl, ?_, ⟨?_, ?_, ?_⟩⟩
      · show t.current_size + (y :: yt).length = s.current_size + (y :: yt).length
        rw [r1]
      · exact le_length_of_take_eq ht (by
          simp only [List.length_append, List.length_take, List.length_cons,
            List.length_drop, hstl]
          omega)
      · show t.current_size + (y :: yt).length ≤ SAV.capacity Cap _
        rw [hcapl, r1]
        omega
      · show 1 ≤ SAV.capacity Cap _
        rw [hcapl]
        omega
    · have he : savInsertRange Cap s off (y :: yt)
          = (⟨s.dynamic_capacity,
              writeRun (shiftRN off (y :: yt).length s.current_size s.buffer) off (y :: yt),
              s.current_size + (y :: yt).length⟩, off) := by
        unfold savInsertRange
        rw [if_neg (by simp), if_neg hg]
      rw [he]
      have ht := insert_many_toList s.buffer (y :: yt) off s.current_size hoff hb
      have htl : s.buffer.take s.current_size = s.toList := rfl
      rw [htl] at ht
      have hcapl : SAV.capacity Cap
          (⟨s.dynamic_capacity,
            writeRun (shiftRN off (y :: yt).length s.current_size s.buffer) off (y :: yt),
            s.current_size + (y :: yt).length⟩ : SAV α) = SAV.capacity Cap s :=
        capacity_congr rfl
      refine ⟨ht, rfl, rfl, ⟨?_, ?_, ?_⟩⟩
      · exact le_length_of_take_eq ht (by
          simp only [List.length_append, List.length_take, List.length_cons,
            List.length_drop, hstl]
          omega)
      · show s.current_size + (y :: yt).length ≤ SAV.capacity Cap _
        rw [hcapl]
        omega
      · show 1 ≤ SAV.capacity Cap _
        rw [hcapl]
        exact hcpos

theorem savResize_spec {α : Type} [Inhabited α] (Cap : Nat) (s : SAV α) (n : Nat)
    (hwf : SAVWF Cap s) :
    (savResize Cap s n).toList
        = (if n ≤ s.current_size then s.toList.take n
           else s.toList ++ List.replicate (n - s.current_size) default) ∧
      (savResize Cap s n).current_size = n ∧
      SAVWF Cap (savResize Cap s n) := by
  obtain ⟨hb, hc, hcpos⟩ := hwf
  have hstl : s.toList.length = s.current_size := length_toList_sav s hb
  rcases Nat.lt_trichotomy n s.current_size with h1 | h1 | h1
  · have he : savResize Cap s n = ⟨s.dynamic_capacity, s.buffer, n⟩ := by
      unfold savResize
      rw [if_pos h1]
    rw [he, if_pos (by omega)]
    have hcapl : SAV.capacity Cap (⟨s.dynamic_capacity, s.buffer, n⟩ : SAV α)
        = SAV.capacity Cap s := capacity_congr rfl
    refine ⟨?_, rfl, ⟨?_, ?_, ?_⟩⟩
    · show s.buffer.take n = (s.buffer.take s.current_size).take n
      rw [List.take_take, Nat.min_eq_left (by omega)]
    · show n ≤ s.buffer.length
      omega
    · show n ≤ SAV.capacity Cap _
      rw [hcapl]
      omega
    · show 1 ≤ SAV.capacity Cap _
      rw [hcapl]
      exact hcpos
  · have he : savResize Cap s n = s := by
      unfold savResize
      rw [if_neg (by omega), if_neg (by omega)]
    rw [he, if_pos (by omega)]
    exact ⟨(List.take_of_length_le (by omega)).symm, h1.symm, ⟨hb, hc, hcpos⟩⟩
  · obtain ⟨r1, r2, r3, r4, r5⟩ := savReserve_facts Cap s n hb
    set t := savReserve Cap s n with hT
    have he : savResize Cap s n
        = ⟨t.dynamic_capacity,
           writeRun t.buffer t.current_size (List.replicate (n - t.current_size) default),
           n⟩ := by
      unfold savResize
      rw [if_neg (by omega), if_pos h1]
    rw [he, if_neg (by omega)]
    have hnn : n - t.current_size = n - s.current_size := by rw [r1]
    rw [← hnn]
    have ht := take_writeRun (List.replicate (n - t.current_size) default) t.buffer
      t.current_size r3
    rw [List.length_replicate, r2,
      show t.current_size + (n - t.current_size) = n from by omega] at ht
    have hcapt : n ≤ SAV.capacity Cap t := by
      by_cases hm2 : n ≤ SAV.capacity Cap s
      · rw [r4 hm2]
        exact hm2
      · rw [r5 (by omega)]
    have hcapl : SAV.capacity Cap
        (⟨t.dynamic_capacity,
          writeRun t.buffer t.current_size (List.replicate (n - t.current_size) default),
          n⟩ : SAV α) = SAV.capacity Cap t := capacity_congr rfl
    refine ⟨ht, rfl, ⟨?_, ?_, ?_⟩⟩
    · exact le_length_of_take_eq ht (by
        simp only [List.length_append, List.length_replicate, hstl]
        omega)
    · show n ≤ SAV.capacity Cap _
      rw [hcapl]
      omega
    · show 1 ≤ SAV.capacity Cap _
      rw [hcapl]
      omega

theorem savResizeFill_spec {α : Type} [Inhabited α] (Cap : Nat) (s : SAV α) (n : Nat) (x : α)
    (hwf : SAVWF Cap s) :
    (savResizeFill Cap s n x).toList
        = (if n ≤ s.current_size then s.toList.take n
           else s.toList ++ List.replicate (n - s.current_size) x) ∧
      (savResizeFill Cap s n x).current_size = n ∧
      SAVWF Cap (savResizeFill Cap s n x) := by
  obtain ⟨hb, hc, hcpos⟩ := hwf
  have hstl : s.toList.length = s.current_size := length_toList_sav s hb
  rcases Nat.lt_trichotomy n s.current_size with h1 | h1 | h1
  · have he : savResizeFill Cap s n x = ⟨s.dynamic_capacity, s.buffer, n⟩ := by
      unfold savResizeFill
      rw [if_pos h1]
    rw [he, if_pos (by omega)]
    have hcapl : SAV.capacity Cap (⟨s.dynamic_capacity, s.buffer, n⟩ : SAV α)
        = SAV.capacity Cap s := capacity_congr rfl
    refine ⟨?_, rfl, ⟨?_, ?_, ?_⟩⟩
    · show s.buffer.take n = (s.buffer.take s.current_size).take n
      rw [List.take_take, Nat.min_eq_left (by omega)]
    · show n ≤ s.buffer.length
      omega
    · show n ≤ SAV.capacity Cap _
      rw [hcapl]
      omega
    · show 1 ≤ SAV.capacity Cap _
      rw [hcapl]
      exact hcpos
  · have he : savResizeFill Cap s n x = s := by
      unfold savResizeFill
      rw [if_neg (by omega), if_neg (by omega)]
    rw [he, if_pos (by omega)]
    exact ⟨(List.take_of_length_le (by omega)).symm, h1.symm, ⟨hb, hc, hcpos⟩⟩
  · obtain ⟨r1, r2, r3, r4, r5⟩ := savReserve_facts Cap s n hb
    set t := savReserve Cap s n with hT
    have he : savResizeFill Cap s n x
        = ⟨t.dynamic_capacity,
           writeRun t.buffer t.current_size (List.replicate (n - t.current_size) x),
           n⟩ := by
      unfold savResizeFill
      rw [if_neg (by omega), if_pos h1]
    rw [he, if_neg (by omega)]
    have hnn : n - t.current_size = n - s.current_size := by rw [r1]
    rw [← hnn]
    have ht := take_writeRun (List.replicate (n - t.current_size) x) t.buffer
      t.current_size r3
    rw [List.length_replicate, r2,
      show t.current_size + (n - t.current_size) = n from by omega] at ht
    have hcapt : n ≤ SAV.capacity Cap t := by
      by_cases hm2 : n ≤ SAV.capacity Cap s
      · rw [r4 hm2]
        exact hm2
      · rw [r5 (by omega)]
    have hcapl : SAV.capacity Cap
        (⟨t.dynamic_capacity,
          writeRun t.buffer t.current_size (List.replicate (n - t.current_size) x),
          n⟩ : SAV α) = SAV.capacity Cap t := capacity_congr rfl
    refine ⟨ht, rfl, ⟨?_, ?_, ?_⟩⟩
    · exact le_length_of_take_eq ht (by
        simp only [List.length_append, List.length_replicate, hstl]
        omega)
    · show n ≤ SAV.capacity Cap _
      rw [hcapl]
      omega
    · show 1 ≤ SAV.capacity Cap _
      rw [hcapl]
      omega

/-! ## Single-step simulation: StackAssistedVector refines the reference -/

/-- One guarded `StackAssistedVector` step simulates one reference step:
same resulting element sequence, same returned iterator offset. -/
theorem savStep_sim {α : Type} [Inhabited α] (Cap : Nat) (s : SAV α) (op : VOp α)
    (s' : SAV α) (r : Option Nat) (hwf : SAVWF Cap s)
    (h : savStep Cap s op = some (s', r)) :
    refStep s.toList op = some (s'.toList, r) ∧ SAVWF Cap s' := by
  have hb := hwf.1
  have hstl : s.toList.length = s.current_size := length_toList_sav s hb
  cases op with
  | push x =>
    simp only [savStep, Option.some.injEq, Prod.mk.injEq] at h
    obtain ⟨rfl, rfl⟩ := h
    obtain ⟨p1, _, p3, _⟩ := savPushBack_spec Cap s x hwf
    refine ⟨?_, p3⟩
    dsimp only [refStep]
    rw [p1]
  | ins1 off x =>
    simp only [savStep] at h
    by_cases hoff : off ≤ s.current_size
    swap
    · rw [if_neg hoff] at h; exact absurd h (by simp)
    rw [if_pos hoff] at h
    simp only [Option.some.injEq, Prod.mk.injEq] at h
    obtain ⟨rfl, rfl⟩ := h
    obtain ⟨p1, p2, _, p4⟩ := savInsert1_spec Cap s off x hoff hwf
    refine ⟨?_, p4⟩
    dsimp only [refStep]
    rw [if_pos (by rw [hstl]; omega), p1, p2]
  | insN off n x =>
    simp only [savStep] at h
    by_cases hoff : off ≤ s.current_size
    swap
    · rw [if_neg hoff] at h; exact absurd h (by simp)
    rw [if_pos hoff] at h
    simp only [Option.some.injEq, Prod.mk.injEq] at h
    obtain ⟨rfl, rfl⟩ := h
    obtain ⟨p1, p2, _, p4⟩ := savInsertN_spec Cap s off n x hoff hwf
    refine ⟨?_, p4⟩
    dsimp only [refStep]
    rw [if_pos (by rw [hstl]; omega), p1, p2]
  | insR off ys =>
    simp only [savStep] at h
    by_cases hoff : off ≤ s.current_size
    swap
    · rw [if_neg hoff] at h; exact absurd h (by simp)
    rw [if_pos hoff] at h
    simp only [Option.some.injEq, Prod.mk.injEq] at h
    obtain ⟨rfl, rfl⟩ := h
    obtain ⟨p1, p2, _, p4⟩ := savInsertRange_spec Cap s off ys hoff hwf
    refine ⟨?_, p4⟩
    dsimp only [refStep]
    rw [if_pos (by rw [hstl]; omega), p1, p2]
  | del1 off =>
    simp only [savStep, savErase1] at h
    by_cases hoff : off < s.current_size
    swap
    · rw [if_neg hoff] at h; exact absurd h (by simp)
    rw [if_pos hoff, if_neg (by omega)] at h
    simp only [Option.map_some', Option.some.injEq, Prod.mk.injEq] at h
    obtain ⟨rfl, rfl⟩ := h
    have ht := erase_toList s.buffer off 1 s.current_size (by omega) hb
    have htl : s.buffer.take s.current_size = s.toList := rfl
    rw [htl] at ht
    obtain ⟨l1, _, _, _⟩ := shiftL_spec 1 (s.current_size - 1 - off) off s.buffer (by omega)
    have hcapl : SAV.capacity Cap
        (⟨s.dynamic_capacity, shiftL 1 (s.current_size - 1 - off) off s.buffer,
          s.current_size - 1⟩ : SAV α) = SAV.capacity Cap s := capacity_congr rfl
    refine ⟨?_, ⟨?_, ?_, ?_⟩⟩
    · dsimp only [refStep]
      rw [if_pos (by rw [hstl]; omega)]
      exact congrArg (fun l => some (l, some off)) ht.symm
    · show s.current_size - 1 ≤ (shiftL 1 (s.current_size - 1 - off) off s.buffer).length
      rw [l1]
      omega
    · show s.current_size - 1 ≤ SAV.capacity Cap _
      rw [hcapl]
      have := hwf.2.1
      omega
    · show 1 ≤ SAV.capacity Cap _
      rw [hcapl]
      exact hwf.2.2
  | delR first last =>
    simp only [savStep] at h
    by_cases hg : first ≤ last ∧ last ≤ s.current_size
    swap
    · rw [if_neg hg] at h; exact absurd h (by simp)
    rw [if_pos hg] at h
    obtain ⟨h1, h2⟩ := hg
    by_cases heq : first = last
    · simp only [savEraseRange, if_pos heq, Option.some.injEq, Prod.mk.injEq] at h
      obtain ⟨rfl, rfl⟩ := h
      refine ⟨?_, hwf⟩
      dsimp only [refStep]
      rw [if_pos ⟨h1, by rw [hstl]; omega⟩]
      subst heq
      rw [List.take_append_drop]
    · simp only [savEraseRange, if_neg heq, Option.some.injEq, Prod.mk.injEq] at h
      obtain ⟨rfl, rfl⟩ := h
      have ht := erase_toList s.buffer first (last - first) s.current_size (by omega) hb
      have htl : s.buffer.take s.current_size = s.toList := rfl
      rw [htl, show first + (last - first) = last from by omega] at ht
      obtain ⟨l1, _, _, _⟩ := shiftL_spec (last - first)
        (s.current_size - (last - first) - first) first s.buffer (by omega)
      have hcapl : SAV.capacity Cap
          (⟨s.dynamic_capacity,
            shiftL (last - first) (s.current_size - (last - first) - first) first s.buffer,
            s.current_size - (last - first)⟩ : SAV α) = SAV.capacity Cap s :=
        capacity_congr rfl
      refine ⟨?_, ⟨?_, ?_, ?_⟩⟩
      · dsimp only [refStep]
        rw [if_pos ⟨h1, by rw [hstl]; omega⟩]
        exact congrArg (fun l => some (l, some first)) ht.symm
      · show s.current_size - (last - first)
            ≤ (shiftL (last - first) (s.current_size - (last - first) - first)
                first s.buffer).length
        rw [l1]
        omega
      · show s.current_size - (last - first) ≤ SAV.capacity Cap _
        rw [hcapl]
        have := hwf.2.1
        omega
      · show 1 ≤ SAV.capacity Cap _
        rw [hcapl]
        exact hwf.2.2
  | rsz n =>
    simp only [savStep, Option.some.injEq, Prod.mk.injEq] at h
    obtain ⟨rfl, rfl⟩ := h
    obtain ⟨p1, _, p3⟩ := savResize_spec Cap s n hwf
    refine ⟨?_, p3⟩
    dsimp only [refStep]
    rw [p1, hstl]
  | rszF n x =>
    simp only [savStep, Option.some.injEq, Prod.mk.injEq] at h
    obtain ⟨rfl, rfl⟩ := h
    obtain ⟨p1, _, p3⟩ := savResizeFill_spec Cap s n x hwf
    refine ⟨?_, p3⟩
    dsimp only [refStep]
    rw [p1, hstl]
  | pop =>
    simp only [savStep, savPopBack] at h
    by_cases hz : s.current_size = 0
    · rw [if_pos hz] at h; exact absurd h (by simp)
    · rw [if_neg hz] at h
      simp only [Option.map_some', Option.some.injEq, Prod.mk.injEq] at h
      obtain ⟨rfl, rfl⟩ := h
      have hq : s.toList.take (s.current_size - 1) = s.buffer.take (s.current_size - 1) := by
        show (s.buffer.take s.current_size).take (s.current_size - 1) = _
        rw [List.take_take, Nat.min_eq_left (by omega)]
      have hcapl : SAV.capacity Cap
          (⟨s.dynamic_capacity, s.buffer, s.current_size - 1⟩ : SAV α)
            = SAV.capacity Cap s := capacity_congr rfl
      refine ⟨?_, ⟨?_, ?_, ?_⟩⟩
      · dsimp only [refStep]
        rw [if_neg (by rw [hstl]; omega), hstl]
        exact congrArg (fun l => some (l, none)) hq
      · show s.current_size - 1 ≤ s.buffer.length
        omega
      · show s.current_size - 1 ≤ SAV.capacity Cap _
        rw [hcapl]
        have := hwf.2.1
        omega
      · show 1 ≤ SAV.capacity Cap _
        rw [hcapl]
        exact hwf.2.2
  | clr =>
    simp only [savStep, savClear, Option.some.injEq, Prod.mk.injEq] at h
    obtain ⟨rfl, rfl⟩ := h
    have hcapl : SAV.capacity Cap (⟨s.dynamic_capacity, s.buffer, 0⟩ : SAV α)
        = SAV.capacity Cap s := capacity_congr rfl
    refine ⟨?_, ⟨Nat.zero_le _, Nat.zero_le _, ?_⟩⟩
    · dsimp only [refStep]
      exact congrArg (fun l => some (l, none))
        (show s.buffer.take 0 = ([] : List α) by simp).symm
    · show 1 ≤ SAV.capacity Cap _
      rw [hcapl]
      exact hwf.2.2

/-! ## Sequence-level refinement -/

/-- A whole guarded operation sequence on a `FixedCapacityVector` simulates
the identical sequence on the reference array: same final element sequence
and the same list of returned iterator offsets. -/
theorem fcvRun_sim {α : Type} [Inhabited α] (Capacity : Nat) :
    ∀ (ops : List (VOp α)) (v v' : FCV α) (rs : List (Option Nat)),
      FCVWF v → v.current_size ≤ Capacity →
      fcvRun Capacity v ops = some (v', rs) →
      ∃ xs, refRun v.toList ops = some (xs, rs) ∧ v'.toList = xs ∧ FCVWF v' ∧
        v'.current_size ≤ Capacity := by
  intro ops
  induction ops with
  | nil =>
    intro v v' rs hwf hc h
    simp only [fcvRun, Option.some.injEq, Prod.mk.injEq] at h
    obtain ⟨rfl, rfl⟩ := h
    exact ⟨v.toList, rfl, rfl, hwf, hc⟩
  | cons op ops ih =>
    intro v v' rs hwf hc h
    cases hstep : fcvStep Capacity v op with
    | none =>
      simp only [fcvRun, hstep, Option.none_bind] at h
      exact absurd h (by simp)
    | some p =>
      obtain ⟨v2, r⟩ := p
      simp only [fcvRun, hstep, Option.some_bind] at h
      cases hrun : fcvRun Capacity v2 ops with
      | none =>
        simp only [hrun, Option.map_none'] at h
        exact absurd h (by simp)
      | some q =>
        obtain ⟨w, rs2⟩ := q
        simp only [hrun, Option.map_some', Option.some.injEq, Prod.mk.injEq] at h
        obtain ⟨rfl, rfl⟩ := h
        obtain ⟨hres, hwf2, hc2⟩ := fcvStep_sim Capacity v op v2 r hwf hstep
        obtain ⟨xs, hxs, hteq, hwf3, hc3⟩ := ih v2 w rs2 hwf2 (hc2 hc) hrun
        refine ⟨xs, ?_, hteq, hwf3, hc3⟩
        simp only [refRun, hres, Option.some_bind, hxs, Option.map_some']

/-- A whole guarded operation sequence on a `StackAssistedVector` simulates
the identical sequence on the reference array. -/
theorem savRun_sim {α : Type} [Inhabited α] (Cap : Nat) :
    ∀ (ops : List (VOp α)) (s s' : SAV α) (rs : List (Option Nat)),
      SAVWF Cap s →
      savRun Cap s ops = some (s', rs) →
      ∃ xs, refRun s.toList ops = some (xs, rs) ∧ s'.toList = xs ∧ SAVWF Cap s' := by
  intro ops
  induction ops with
  | nil =>
    intro s s' rs hwf h
    simp only [savRun, Option.some.injEq, Prod.mk.injEq] at h
    obtain ⟨rfl, rfl⟩ := h
    exact ⟨s.toList, rfl, rfl, hwf⟩
  | cons op ops ih =>
    intro s s' rs hwf h
    cases hstep : savStep Cap s op with
    | none =>
      simp only [savRun, hstep, Option.none_bind] at h
      exact absurd h (by simp)
    | some p =>
      obtain ⟨s2, r⟩ := p
      simp only [savRun, hstep, Option.some_bind] at h
      cases hrun : savRun Cap s2 ops with
      | none =>
        simp only [hrun, Option.map_none'] at h
        exact absurd h (by simp)
      | some q =>
        obtain ⟨t, rs2⟩ := q
        simp only [hrun, Option.map_some', Option.some.injEq, Prod.mk.injEq] at h
        obtain ⟨rfl, rfl⟩ := h
        obtain ⟨hres, hwf2⟩ := savStep_sim Cap s op s2 r hwf hstep
        obtain ⟨xs, hxs, hteq, hwf3⟩ := ih s2 t rs2 hwf2 hrun
        refine ⟨xs, ?_, hteq, hwf3⟩
        simp only [refRun, hres, Option.some_bind, hxs, Option.map_some']

/-! ## Reachability invariants -/

theorem take_writeRun_nil {α : Type} [Inhabited α] (ys : List α) :
    (writeRun ([] : List α) 0 ys).take ys.length = ys := by
  have h := take_writeRun ys [] 0 (Nat.le_refl 0)
  simpa using h

theorem le_length_writeRun_nil {α : Type} [Inhabited α] (ys : List α) :
    ys.length ≤ (writeRun ([] : List α) 0 ys).length :=
  le_length_of_take_eq (take_writeRun_nil ys) (Nat.le_refl _)

/-- Every reachable `FixedCapacityVector` state is well-formed with
`current_size ≤ Capacity`. -/
theorem fcvReach_inv {α : Type} [Inhabited α] (Capacity : Nat) :
    ∀ v : FCV α, FcvReach Capacity v → FCVWF v ∧ v.current_size ≤ Capacity := by
  intro v h
  induction h with
  | empty => exact ⟨Nat.le_refl 0, Nat.zero_le _⟩
  | fromRange ys hlen => exact ⟨le_length_writeRun_nil ys, hlen⟩
  | fromSize n hn =>
    have h2 := le_length_writeRun_nil (List.replicate n (default : α))
    rw [List.length_replicate] at h2
    exact ⟨h2, hn⟩
  | fromVal n x hn =>
    have h2 := le_length_writeRun_nil (List.replicate n x)
    rw [List.length_replicate] at h2
    exact ⟨h2, hn⟩
  | copy v _ ih =>
    obtain ⟨hwf, hc⟩ := ih
    have h2 := le_length_writeRun_nil (v.elements.take v.current_size)
    rw [List.length_take_of_le hwf] at h2
    exact ⟨h2, hc⟩
  | move v _ ih =>
    obtain ⟨hwf, hc⟩ := ih
    have h2 := le_length_writeRun_nil (v.elements.take v.current_size)
    rw [List.length_take_of_le hwf] at h2
    exact ⟨h2, hc⟩
  | moved v _ ih => exact ⟨Nat.zero_le _, Nat.zero_le _⟩
  | step v v' op r _ hstep ih =>
    obtain ⟨hwf, hc⟩ := ih
    obtain ⟨_, hwf2, hc2⟩ := fcvStep_sim Capacity v op v' r hwf hstep
    exact ⟨hwf2, hc2 hc⟩

/-- Every reachable `StackAssistedVector` state is well-formed; in
particular `current_size ≤ capacity()`. -/
theorem savReach_inv {α : Type} [Inhabited α] (Cap : Nat) (hCap : 1 ≤ Cap) :
    ∀ s : SAV α, SavReach Cap s → SAVWF Cap s := by
  have hce : SAV.capacity Cap (savEmpty : SAV α) = Cap := rfl
  intro s h
  induction h with
  | empty => exact ⟨Nat.le_refl 0, Nat.zero_le _, hCap⟩
  | fromRange ys =>
    obtain ⟨r1, r2, r3, r4, r5⟩ := savReserve_facts Cap (savEmpty : SAV α) ys.length
      (Nat.le_refl 0)
    rw [hce] at r4 r5
    set t := savReserve Cap (savEmpty : SAV α) ys.length with hT
    have he : savFromRange Cap ys
        = ⟨t.dynamic_capacity, writeRun t.buffer 0 ys, ys.length⟩ := rfl
    rw [he]
    have h2 := take_writeRun ys t.buffer 0 (Nat.zero_le _)
    simp only [Nat.zero_add, List.take_zero, List.nil_append] at h2
    have hcapl : SAV.capacity Cap
        (⟨t.dynamic_capacity, writeRun t.buffer 0 ys, ys.length⟩ : SAV α)
          = SAV.capacity Cap t := capacity_congr rfl
    refine ⟨le_length_of_take_eq h2 (Nat.le_refl _), ?_, ?_⟩
    · show ys.length ≤ SAV.capacity Cap _
      rw [hcapl]
      by_cases hm : ys.length ≤ Cap
      · rw [r4 hm]
        exact hm
      · rw [r5 (by omega)]
    · show 1 ≤ SAV.capacity Cap _
      rw [hcapl]
      by_cases hm : ys.length ≤ Cap
      · rw [r4 hm]
        exact hCap
      · rw [r5 (by omega)]
        omega
  | fromSize n =>
    obtain ⟨r1, r2, r3, r4, r5⟩ := savReserve_facts Cap (savEmpty : SAV α) n (Nat.le_refl 0)
    rw [hce] at r4 r5
    set t := savReserve Cap (savEmpty : SAV α) n with hT
    have he : savFromSize Cap n
        = ⟨t.dynamic_capacity, writeRun t.buffer 0 (List.replicate n (default : α)), n⟩ := rfl
    rw [he]
    have h2 := take_writeRun (List.replicate n (default : α)) t.buffer 0 (Nat.zero_le _)
    simp only [Nat.zero_add, List.take_zero, List.nil_append, List.length_replicate] at h2
    have hcapl : SAV.capacity Cap
        (⟨t.dynamic_capacity, writeRun t.buffer 0 (List.replicate n (default : α)), n⟩ : SAV α)
          = SAV.capacity Cap t := capacity_congr rfl
    refine ⟨le_length_of_take_eq h2 (by rw [List.length_replicate]), ?_, ?_⟩
    · show n ≤ SAV.capacity Cap _
      rw [hcapl]
      by_cases hm : n ≤ Cap
      · rw [r4 hm]
        exact hm
      · rw [r5 (by omega)]
    · show 1 ≤ SAV.capacity Cap _
      rw [hcapl]
      by_cases hm : n ≤ Cap
      · rw [r4 hm]
        exact hCap
      · rw [r5 (by omega)]
        omega
  | copy s _ ih =>
    obtain ⟨hb, hc, hcp⟩ := ih
    obtain ⟨r1, r2, r3, r4, r5⟩ := savReserve_facts Cap (savEmpty : SAV α) s.current_size
      (Nat.le_refl 0)
    rw [hce] at r4 r5
    set t := savReserve Cap (savEmpty : SAV α) s.current_size with hT
    have he : savCopyCtor Cap s
        = ⟨t.dynamic_capacity, writeRun t.buffer 0 (s.buffer.take s.current_size),
           s.current_size⟩ := rfl
    rw [he]
    have h2 := take_writeRun (s.buffer.take s.current_size) t.buffer 0 (Nat.zero_le _)
    simp only [Nat.zero_add, List.take_zero, List.nil_append] at h2
    rw [List.length_take_of_le hb] at h2
    have hcapl : SAV.capacity Cap
        (⟨t.dynamic_capacity, writeRun t.buffer 0 (s.buffer.take s.current_size),
          s.current_size⟩ : SAV α) = SAV.capacity Cap t := capacity_congr rfl
    refine ⟨le_length_of_take_eq h2 (by rw [List.length_take_of_le hb]), ?_, ?_⟩
    · show s.current_size ≤ SAV.capacity Cap _
      rw [hcapl]
      by_cases hm : s.current_size ≤ Cap
      · rw [r4 hm]
        exact hm
      · rw [r5 (by omega)]
    · show 1 ≤ SAV.capacity Cap _
      rw [hcapl]
      by_cases hm : s.current_size ≤ Cap
      · rw [r4 hm]
        exact hCap
      · rw [r5 (by omega)]
        omega
  | move s _ ih =>
    obtain ⟨hb, hc, hcp⟩ := ih
    cases hdc : s.dynamic_capacity with
    | some c =>
      have hcs : SAV.capacity Cap s = c := by
        unfold SAV.capacity
        rw [hdc]
      have he : (savMoveCtor s).1 = ⟨some c, s.buffer, s.current_size⟩ := by
        unfold savMoveCtor
        rw [hdc]
      rw [he]
      exact ⟨hb, by show s.current_size ≤ c; omega, by show 1 ≤ c; omega⟩
    | none =>
      have hcs : SAV.capacity Cap s = Cap := by
        unfold SAV.capacity
        rw [hdc]
      have he : (savMoveCtor s).1
          = ⟨none, writeRun [] 0 (s.buffer.take s.current_size), s.current_size⟩ := by
        unfold savMoveCtor
        rw [hdc]
      rw [he]
      have h2 := le_length_writeRun_nil (s.buffer.take s.current_size)
      rw [List.length_take_of_le hb] at h2
      exact ⟨h2, by show s.current_size ≤ Cap; omega, by show 1 ≤ Cap; exact hCap⟩
  | moved s _ ih =>
    obtain ⟨hb, hc, hcp⟩ := ih
    cases hdc : s.dynamic_capacity with
    | some c =>
      have he : (savMoveCtor s).2 = ⟨none, [], 0⟩ := by
        unfold savMoveCtor
        rw [hdc]
      rw [he]
      exact ⟨Nat.le_refl 0, Nat.zero_le _, by show 1 ≤ Cap; exact hCap⟩
    | none =>
      have he : (savMoveCtor s).2 = s := by
        unfold savMoveCtor
        rw [hdc]
      rw [he]
      exact ⟨hb, hc, hcp⟩
  | reserve s n _ ih =>
    obtain ⟨hb, hc, hcp⟩ := ih
    obtain ⟨r1, r2, r3, r4, r5⟩ := savReserve_facts Cap s n hb
    refine ⟨r3, ?_, ?_⟩
    · by_cases hm : n ≤ SAV.capacity Cap s
      · rw [r1, r4 hm]
        exact hc
      · rw [r1, r5 (by omega)]
        omega
    · by_cases hm : n ≤ SAV.capacity Cap s
      · rw [r4 hm]
        exact hcp
      · rw [r5 (by omega)]
        omega
  | step s s' op r _ hstep ih =>
    exact (savStep_sim Cap s op s' r ih hstep).2

/-! ## Claim theorems -/

/-- C1: for every sequence of `push_back`/`insert`/`erase`/`resize` (and
`pop_back`/`clear`) operations whose intermediate sizes stay within capacity
(the guards of `fcvStep`; a `StackAssistedVector` grows on demand), a
`FixedCapacityVector` or `StackAssistedVector` subjected to the sequence
holds the same elements in the same order as the reference growable array
subjected to the identical sequence, and the iterator offsets returned by
`insert`/`erase` equal the reference's returned positions. -/
theorem fcv_sav_refine_reference_sequences {α : Type} [Inhabited α]
    (Capacity Cap : Nat) (hCap : 1 ≤ Cap) :
    (∀ (ops : List (VOp α)) (v : FCV α) (rs : List (Option Nat)),
      fcvRun Capacity fcvEmpty ops = some (v, rs) →
      ∃ xs, refRun [] ops = some (xs, rs) ∧ v.toList = xs) ∧
    (∀ (ops : List (VOp α)) (s : SAV α) (rs : List (Option Nat)),
      savRun Cap savEmpty ops = some (s, rs) →
      ∃ xs, refRun [] ops = some (xs, rs) ∧ s.toList = xs) := by
  constructor
  · intro ops v rs h
    obtain ⟨xs, h1, h2, _, _⟩ :=
      fcvRun_sim Capacity ops fcvEmpty v rs (Nat.le_refl 0) (Nat.zero_le _) h
    exact ⟨xs, h1, h2⟩
  · intro ops s rs h
    obtain ⟨xs, h1, h2, _⟩ :=
      savRun_sim Cap ops savEmpty s rs ⟨Nat.le_refl 0, Nat.zero_le _, hCap⟩ h
    exact ⟨xs, h1, h2⟩

theorem fcv_sav_refine_reference_sequences_witness :
    (∃ xs, refRun ([] : List Nat) [VOp.push 5, VOp.ins1 0 6, VOp.del1 1]
        = some (xs, [none, some 0, some 1]) ∧ FCV.toList ⟨[6, 5], 1⟩ = xs) ∧
    (∃ xs, refRun ([] : List Nat) [VOp.push 5, VOp.ins1 0 6, VOp.del1 1]
        = some (xs, [none, some 0, some 1]) ∧ SAV.toList ⟨none, [6, 5], 1⟩ = xs) :=
  ⟨(fcv_sav_refine_reference_sequences 4 2 (by decide)).1 _ ⟨[6, 5], 1⟩ _ (by decide),
   (fcv_sav_refine_reference_sequences 4 2 (by decide)).2 _ ⟨none, [6, 5], 1⟩ _ (by decide)⟩

/-- C2: in every state reachable by the public operations with their
documented preconditions, `0 ≤ size() ≤ capacity()`; and a
`FixedCapacityVector`'s `capacity()` equals the `Capacity` template
parameter, unchanged by any operation (it does not depend on the instance
state at all). -/
theorem size_within_capacity_invariant {α : Type} [Inhabited α]
    (Capacity Cap : Nat) (hCap : 1 ≤ Cap) (v : FCV α) (hv : FcvReach Capacity v)
    (s : SAV α) (hs : SavReach Cap s) :
    v.size ≤ FCV.capacity Capacity v ∧ FCV.capacity Capacity v = Capacity ∧
      s.size ≤ SAV.capacity Cap s :=
  ⟨(fcvReach_inv Capacity v hv).2, rfl, (savReach_inv Cap hCap s hs).2.1⟩

theorem size_within_capacity_invariant_witness :
    (fcvEmpty : FCV Nat).size ≤ FCV.capacity 3 (fcvEmpty : FCV Nat) ∧
      FCV.capacity 3 (fcvEmpty : FCV Nat) = 3 ∧
      (savEmpty : SAV Nat).size ≤ SAV.capacity 2 (savEmpty : SAV Nat) :=
  size_within_capacity_invariant 3 2 (by decide) fcvEmpty FcvReach.empty savEmpty
    SavReach.empty

/-- C3 [code bug]: a `FixedCapacityVector<int, 1>` that is already full
(size() == Capacity == 1) passes `push_back`'s
`assert(current_size <= Capacity)` — the call returns normally (`some`)
instead of failing fatally — silently constructs the new element in slot
index 1, which is outside the `Capacity` slots `[0, 1)`, and leaves
size 2 > Capacity; `emplace_back` and the single-element `insert` carry the
same off-by-one assert (`<=` where the claim requires a failure at
`size() == Capacity`). -/
theorem fcv_full_push_back_passes_assert :
    fcvPushBack 1 (⟨[5], 1⟩ : FCV Nat) 7 = some ⟨[5, 7], 2⟩ ∧
    fcvEmplaceBack 1 (⟨[5], 1⟩ : FCV Nat) 7 = some ⟨[5, 7], 2⟩ ∧
    fcvInsert1 1 (⟨[5], 1⟩ : FCV Nat) 0 7 = some (⟨[7, 5], 2⟩, 0) ∧
    FCV.capacity 1 (⟨[5, 7], 2⟩ : FCV Nat) < (⟨[5, 7], 2⟩ : FCV Nat).size := by
  decide

/-- C4 [code bug]: the destroy loop of
`StackAssistedVector::resize(new_size, filler_value)` starts at
`new_size + 1`, so shrinking a container of size 2 to size 1 destroys
nothing at all — the element at index 1 is never destroyed — while the
plain `resize(new_size)` of both containers destroys exactly the indices
`[new_size, size)` that the claim requires. -/
theorem sav_resize_fill_skips_one_destroy :
    savResizeFillDestroyedIdx 2 1 = [] ∧
    savResizeDestroyedIdx 2 1 = [1] ∧
    fcvResizeDestroyedIdx 2 1 = [1] ∧
    savResizeFillDestroyedIdx 2 1 ≠ destroySeq 1 2 := by
  decide

/-- C5 [counterexample]: move-constructing from an Inline (stack-state)
`StackAssistedVector` of size 1 leaves the moved-from source with size 1,
not 0: the Inline branch of the move constructor never resets
`other.current_size`. -/
theorem sav_inline_move_source_not_emptied :
    (savMoveCtor (⟨none, [7], 1⟩ : SAV Nat)).2.current_size = 1 ∧
    ¬ (savMoveCtor (⟨none, [7], 1⟩ : SAV Nat)).2.current_size = 0 := by
  decide

/-- C5 [amended]: move construction transfers the elements to the
destination in order for both containers; the moved-from
`FixedCapacityVector` ends with size 0, and the moved-from
`StackAssistedVector` ends element-less and buffer-less when it was in the
Heap state — while an Inline source keeps its size unchanged (its elements
are merely left in a moved-from state). -/
theorem move_ctor_transfer_amended {α : Type} [Inhabited α] (v : FCV α) (s : SAV α)
    (hv : FCVWF v) (hs : s.current_size ≤ s.buffer.length) :
    ((fcvMoveCtor v).1.toList = v.toList ∧ (fcvMoveCtor v).2.current_size = 0) ∧
    (∀ c, s.dynamic_capacity = some c →
      (savMoveCtor s).1.toList = s.toList ∧
      (savMoveCtor s).2.current_size = 0 ∧
      (savMoveCtor s).2.dynamic_capacity = none) ∧
    (s.dynamic_capacity = none →
      (savMoveCtor s).1.toList = s.toList ∧
      (savMoveCtor s).2.current_size = s.current_size) := by
  refine ⟨⟨?_, rfl⟩, ?_, ?_⟩
  · show (writeRun [] 0 (v.elements.take v.current_size)).take v.current_size = v.toList
    have h2 := take_writeRun_nil (v.elements.take v.current_size)
    rw [List.length_take_of_le hv] at h2
    exact h2
  · intro c hdc
    have he : savMoveCtor s = (⟨some c, s.buffer, s.current_size⟩, ⟨none, [], 0⟩) := by
      unfold savMoveCtor
      rw [hdc]
    rw [he]
    exact ⟨rfl, rfl, rfl⟩
  · intro hdc
    have he : savMoveCtor s
        = (⟨none, writeRun [] 0 (s.buffer.take s.current_size), s.current_size⟩, s) := by
      unfold savMoveCtor
      rw [hdc]
    rw [he]
    refine ⟨?_, rfl⟩
    show (writeRun [] 0 (s.buffer.take s.current_size)).take s.current_size = s.toList
    have h2 := take_writeRun_nil (s.buffer.take s.current_size)
    rw [List.length_take_of_le hs] at h2
    exact h2

theorem move_ctor_transfer_amended_witness :
    ((fcvMoveCtor (⟨[3], 1⟩ : FCV Nat)).1.toList = FCV.toList ⟨[3], 1⟩ ∧
      (fcvMoveCtor (⟨[3], 1⟩ : FCV Nat)).2.current_size = 0) ∧
    ((savMoveCtor (⟨some 4, [1, 2], 2⟩ : SAV Nat)).1.toList
        = SAV.toList ⟨some 4, [1, 2], 2⟩ ∧
      (savMoveCtor (⟨some 4, [1, 2], 2⟩ : SAV Nat)).2.current_size = 0 ∧
      (savMoveCtor (⟨some 4, [1, 2], 2⟩ : SAV Nat)).2.dynamic_capacity = none) := by
  have h := move_ctor_transfer_amended (⟨[3], 1⟩ : FCV Nat) (⟨some 4, [1, 2], 2⟩ : SAV Nat)
    (Nat.le_refl 1) (by decide)
  exact ⟨h.1, h.2.1 4 rfl⟩

/-- C6 [code bug — evaluation of the intended model]: on a
`StackAssistedVector<int, 4>` in the Heap state with size 3 and heap
capacity 8, the intended `shrink_to_fit` (the source's deallocate call is
ill-formed, see the C6 analysis and the doc comment of `savShrinkToFit`)
moves the elements back inline unchanged, nulls the heap pointer, and
leaves capacity() equal to the inline threshold 4. -/
theorem sav_shrink_to_fit_inline_model :
    savShrinkToFit 4 (⟨some 8, [1, 2, 3], 3⟩ : SAV Nat) = ⟨none, [1, 2, 3], 3⟩ ∧
    SAV.toList (savShrinkToFit 4 (⟨some 8, [1, 2, 3], 3⟩ : SAV Nat))
      = SAV.toList (⟨some 8, [1, 2, 3], 3⟩ : SAV Nat) ∧
    SAV.capacity 4 (savShrinkToFit 4 (⟨some 8, [1, 2, 3], 3⟩ : SAV Nat)) = 4 ∧
    (savShrinkToFit 4 (⟨some 8, [1, 2, 3], 3⟩ : SAV Nat)).dynamic_capacity = none := by
  decide

/-- C7: a `BoundsCheckedVector` indexed access fails fatally (prints the
diagnostic and terminates, modeled `none`) precisely when the signed index
is negative or at least size(); when `0 ≤ i < size()` it returns the `i`-th
element together with the untouched container; `front`/`back` delegate to
`operator[]` at their computed indices `0` and `size() - 1`. -/
theorem bcv_access_fails_iff_out_of_bounds {α : Type} [Inhabited α] (v : BCV α) (i : Int) :
    (bcvSubscript v i = none ↔ i < 0 ∨ (v.data.length : Int) ≤ i) ∧
    (0 ≤ i → i < (v.data.length : Int) →
      bcvSubscript v i = some (v.data.getD i.toNat default, v)) ∧
    bcvFront v = bcvSubscript v 0 ∧
    bcvBack v = bcvSubscript v ((v.data.length : Int) - 1) := by
  have hcb : (checkIfOutOfBounds i v.data.length = true)
      ↔ (i < 0 ∨ (v.data.length : Int) ≤ i) := by
    unfold checkIfOutOfBounds
    simp
  refine ⟨⟨?_, ?_⟩, ?_, rfl, rfl⟩
  · intro h
    unfold bcvSubscript at h
    by_cases hcond : checkIfOutOfBounds i v.data.length = true
    · exact hcb.mp hcond
    · rw [if_neg hcond] at h
      exact absurd h (by simp)
  · intro h
    unfold bcvSubscript
    rw [if_pos (hcb.mpr h)]
  · intro h1 h2
    unfold bcvSubscript
    rw [if_neg (fun hh => absurd (hcb.mp hh) (by omega))]

theorem bcv_access_fails_iff_out_of_bounds_witness :
    bcvSubscript (⟨[5], 3, none, 0⟩ : BCV Nat) 0 = some (5, ⟨[5], 3, none, 0⟩) ∧
    bcvSubscript (⟨[5], 3, none, 0⟩ : BCV Nat) 1 = none := by
  constructor
  · have h := (bcv_access_fails_iff_out_of_bounds (⟨[5], 3, none, 0⟩ : BCV Nat) 0).2.1
      (by decide) (by decide)
    exact h.trans (by decide)
  · exact (bcv_access_fails_iff_out_of_bounds (⟨[5], 3, none, 0⟩ : BCV Nat) 1).1.mpr
      (by decide)

set_option maxRecDepth 40000 in
/-- C8: a `push_back` or `emplace_back` performed when size() == capacity()
first grows the capacity to exactly twice the old capacity; and in the
concrete scenario, a `StackAssistedVector` with inline threshold 4 given
100 `push_back`s ends in the Heap state with size 100 and capacity
128 ≥ 100, its contents matching the reference growable array
index for index. -/
theorem sav_push_back_doubling {α : Type} [Inhabited α] (Cap : Nat) (s : SAV α) (x : α)
    (hwf : SAVWF Cap s) (hfull : s.current_size = SAV.capacity Cap s) :
    SAV.capacity Cap (savPushBack Cap s x) = 2 * SAV.capacity Cap s ∧
    SAV.capacity Cap (savEmplaceBack Cap s x) = 2 * SAV.capacity Cap s ∧
    ((savRun 4 (savEmpty : SAV Nat) ((List.range 100).map VOp.push)).map
        (fun p => (p.1.current_size, p.1.dynamic_capacity, p.1.toList))
      = some (100, some 128, List.range 100)) ∧
    ((refRun ([] : List Nat) ((List.range 100).map VOp.push)).map (fun p => p.1)
      = some (List.range 100)) := by
  have hd := (savPushBack_spec Cap s x hwf).2.2.2
  rw [if_pos hfull] at hd
  exact ⟨hd, hd, by decide, by decide⟩

theorem sav_push_back_doubling_witness :
    SAV.capacity 2 (savPushBack 2 (⟨none, [7, 8], 2⟩ : SAV Nat) 9)
      = 2 * SAV.capacity 2 (⟨none, [7, 8], 2⟩ : SAV Nat) :=
  (sav_push_back_doubling 2 (⟨none, [7, 8], 2⟩ : SAV Nat) 9
    ⟨by decide, by decide, by decide⟩ (by decide)).1

/-- C9: both `swap` forms record, for each operand, that operand's own size
immediately before and after the swap, and attribute both records to the
swap's own call site (the friend `swap` overwrites the internal
member-swap's location with the outer call site); in the main.cpp scenario
— range-construction, `push_back`, then non-member `swap` — the
out-of-bounds report of the second operand carries the swap's size change
(4 → 3) and the swap's call-site label 50, not the `push_back` label 30. -/
theorem bcv_swap_provenance {α : Type} (a b : BCV α) (internal_info curr_info : Nat) :
    ((bcvMemberSwap a b curr_info).1.last_size_change
        = some (a.data.length, b.data.length) ∧
      (bcvMemberSwap a b curr_info).2.last_size_change
        = some (b.data.length, a.data.length) ∧
      (bcvMemberSwap a b curr_info).1.last_size_change_info = curr_info ∧
      (bcvMemberSwap a b curr_info).2.last_size_change_info = curr_info) ∧
    ((bcvFriendSwap a b internal_info curr_info).1.last_size_change
        = some (a.data.length, b.data.length) ∧
      (bcvFriendSwap a b internal_info curr_info).2.last_size_change
        = some (b.data.length, a.data.length) ∧
      (bcvFriendSwap a b internal_info curr_info).1.last_size_change_info = curr_info ∧
      (bcvFriendSwap a b internal_info curr_info).2.last_size_change_info = curr_info) ∧
    (bcvSubscript
        ((bcvFriendSwap (bcvFromRange [1, 2, 3] 10)
          (bcvPushBack (bcvFromRange [1, 2, 3] 20) 4 30) 40 50).2 : BCV Nat) 3 = none ∧
      bcvReport
        ((bcvFriendSwap (bcvFromRange [1, 2, 3] 10)
          (bcvPushBack (bcvFromRange [1, 2, 3] 20) 4 30) 40 50).2 : BCV Nat)
        = (20, some ((4, 3), 50))) :=
  ⟨⟨rfl, rfl, rfl, rfl⟩, ⟨rfl, rfl, rfl, rfl⟩, by decide, by decide⟩

/-- C10: inserting zero elements (count `n == 0` or an empty iterator
range) and erasing an empty range (`first == last`) return an iterator at
the position argument's offset and leave the container — including its
size, capacity, storage location and buffer — entirely unchanged.  (The
FixedCapacityVector count overload runs its assert before the `n == 0`
check, hence its `size() ≤ Capacity` hypothesis.) -/
theorem insert_erase_nothing_noop {α : Type} [Inhabited α] (Capacity Cap : Nat)
    (v : FCV α) (s : SAV α) (off first : Nat) (x : α)
    (hszC : v.current_size ≤ Capacity) :
    fcvInsertN Capacity v off 0 x = some (v, off) ∧
    fcvInsertRange Capacity v off [] = some (v, off) ∧
    fcvEraseRange v first first = (v, first) ∧
    savInsertN Cap s off 0 x = (s, off) ∧
    savInsertRange Cap s off [] = (s, off) ∧
    savEraseRange s first first = (s, first) := by
  refine ⟨?_, ?_, ?_, ?_, ?_, ?_⟩
  · unfold fcvInsertN
    rw [if_pos (by omega), if_pos rfl]
  · unfold fcvInsertRange
    rw [if_pos (by simp : ([] : List α).isEmpty = true)]
  · unfold fcvEraseRange
    rw [if_pos rfl]
  · unfold savInsertN
    rw [if_pos rfl]
  · unfold savInsertRange
    rw [if_pos (by simp : ([] : List α).isEmpty = true)]
  · unfold savEraseRange
    rw [if_pos rfl]

theorem insert_erase_nothing_noop_witness :
    fcvInsertN 2 (⟨[5], 1⟩ : FCV Nat) 1 0 9 = some (⟨[5], 1⟩, 1) ∧
    fcvInsertRange 2 (⟨[5], 1⟩ : FCV Nat) 1 [] = some (⟨[5], 1⟩, 1) ∧
    fcvEraseRange (⟨[5], 1⟩ : FCV Nat) 0 0 = (⟨[5], 1⟩, 0) ∧
    savInsertN 2 (⟨none, [5], 1⟩ : SAV Nat) 1 0 9 = (⟨none, [5], 1⟩, 1) ∧
    savInsertRange 2 (⟨none, [5], 1⟩ : SAV Nat) 1 [] = (⟨none, [5], 1⟩, 1) ∧
    savEraseRange (⟨none, [5], 1⟩ : SAV Nat) 0 0 = (⟨none, [5], 1⟩, 0) :=
  insert_erase_nothing_noop 2 2 ⟨[5], 1⟩ ⟨none, [5], 1⟩ 1 0 9 (by decide)

end VecVar
